import Mathlib

/-!
Verification of the AI quality gate (`trendradar/ai/quality_gate.py`).

The gate filters four nested collections (hot stats, hot new titles, RSS
stats, RSS new) before delivery: it flattens them into candidate items,
sends size-bounded batches to an external judgment service, merges the
returned keep/score decisions under a threshold policy, and rebuilds the
original nested shapes for the surviving entries.

Shallow-embedding conventions:
* Python dicts holding a fixed set of inspected string fields are modelled
  as structures; a missing string key and an empty value coincide (the code
  only ever reads them through `... or ""`), while the `count` and
  `total_new_count` keys, whose presence is observable, are `Option Int`.
* Network I/O (`AIClient.chat`) is an oracle parameter returning either a
  raw response string or a raised exception; `json.loads` is likewise an
  uninterpreted parameter `loads : String → Option Json` (`none` = raise),
  so theorems hold for every parser behaviour. JSON numbers are modelled
  as integers.
* Exceptions are `PyExc` values propagated through `Except`.
-/

set_option autoImplicit false

namespace QualityGate

/-! ### Python string primitives used by the gate -/
/-- Python `str.strip()` whitespace class (ASCII part). -/
def pyIsSpace (c : Char) : Bool :=
  c = ' ' || c = '\t' || c = '\n' || c = '\r' || c = '\x0b' || c = '\x0c'

/-- Strip characters satisfying `p` from both ends of a char list. -/
def stripListWith (p : Char → Bool) (l : List Char) : List Char :=
  ((l.dropWhile p).reverse.dropWhile p).reverse

/-- Python `s.strip()`. -/
def pyStrip (s : String) : String :=
  ⟨stripListWith pyIsSpace s.data⟩

/-- The backtick character (code 96). -/
def backtick : Char := Char.ofNat 96

/-- Python `s.strip(chars)` restricted to one strip character. -/
def pyStripChar (c : Char) (s : String) : String :=
  ⟨stripListWith (fun x => x = c) s.data⟩

/-- Python `c.lower()` for ASCII letters (used on the fence language tag). -/
def pyLowerChar (c : Char) : Char :=
  if 'A' ≤ c ∧ c ≤ 'Z' then Char.ofNat (c.toNat + 32) else c

/-- Python `s.lower()` (ASCII). -/
def pyLower (s : String) : String :=
  ⟨s.data.map pyLowerChar⟩

/-- Line-break characters recognised by Python `str.splitlines` (ASCII part). -/
def pyIsLineBreak (c : Char) : Bool :=
  c = '\n' || c = '\r' || c = '\x0b' || c = '\x0c'

/-- Core of `str.splitlines`: split on line breaks, treating CR LF as one break. -/
def splitLinesCore : List Char → List Char → List (List Char)
  | [], acc => [acc.reverse]
  | '\r' :: '\n' :: rest, acc => acc.reverse :: splitLinesCore rest []
  | '\r' :: rest, acc => acc.reverse :: splitLinesCore rest []
  | c :: rest, acc =>
    if pyIsLineBreak c then
      acc.reverse :: splitLinesCore rest []
    else
      splitLinesCore rest (c :: acc)

/-- Python `s.splitlines()`: no trailing empty line; empty string gives `[]`. -/
def pySplitLines (s : String) : List String :=
  match splitLinesCore s.data [] with
  | ls =>
    let ls := if ls ≠ [] ∧ ls.getLast? = some [] then ls.dropLast else ls
    ls.map (fun l => ⟨l⟩)

/-- Python `"\n".join(lines)`. -/
def pyJoinNewline (ls : List String) : String :=
  ⟨(ls.map String.data).intersperse ['\n'] |>.flatten⟩

/-- Python `s.find(c)` for a single character: first index or `-1` (as `Option`). -/
def pyFind (c : Char) (l : List Char) : Option Nat :=
  l.findIdx? (fun x => x = c)

/-- Python `s.rfind(c)` for a single character: last index or `-1` (as `Option`). -/
def pyRFind (c : Char) (l : List Char) : Option Nat :=
  (l.reverse.findIdx? (fun x => x = c)).map (fun i => l.length - 1 - i)

/-- Python truthiness of a string (`s or t`). -/
def strOr (a b : String) : String :=
  if a ≠ "" then a else b

/-! ### Decimal rendering of `Nat` (Python f-string `f"{i}"`) -/
/-- The decimal digit character for `d < 10`. -/
def digitChar (d : Nat) : Char := Char.ofNat (48 + d)

/-- Decimal digit accumulation with structural fuel (so that the kernel can
evaluate it); `natChars` supplies enough fuel for the recursion `n ↦ n / 10`
to finish. -/
def natCharsAux : Nat → Nat → List Char
  | 0, _ => []
  | fuel + 1, n =>
    if n < 10 then [digitChar n]
    else natCharsAux fuel (n / 10) ++ [digitChar (n % 10)]

/-- Decimal digits of `n`, most significant first (as Python `str(n)` for `n : int ≥ 0`). -/
def natChars (n : Nat) : List Char := natCharsAux (n + 1) n

/-- Python decimal rendering of a nonnegative int. -/
def pyNatStr (n : Nat) : String := ⟨natChars n⟩

/-- Decimal value of a digit list (inverse of `natChars`). -/
def digitsVal (l : List Char) : Nat :=
  l.foldl (fun a c => 10 * a + (c.toNat - 48)) 0

/-! ### Candidate ids `f"{section}:{gi}:{ti}"` -/
/-- The composite candidate id, `f"{sec}:{gi}:{ti}"` in the source. -/
def mkId (sec : String) (gi ti : Nat) : String :=
  sec ++ ":" ++ pyNatStr gi ++ ":" ++ pyNatStr ti

/-- The four section tags of the collector. -/
def sectionTags : List String := ["hot_stats", "hot_new", "rss_stats", "rss_new"]

/-! ### Python exceptions and dicts -/
/-- A raised Python exception: its type name and its message.
`f"{type(e).__name__}: {e}"` becomes `e.name ++ ": " ++ e.msg`. -/
structure PyExc where
  name : String
  msg : String
  deriving DecidableEq

/-- A Python dict with string keys, as an insertion-ordered association list. -/
abbrev PyDict (α : Type) := List (String × α)

/-- Dict read: first (= unique) binding of the key. -/
def dget {α : Type} (m : PyDict α) (k : String) : Option α :=
  (m.find? (fun p => p.1 = k)).map (fun p => p.2)

/-- Dict write `m[k] = v`: overwrite in place, or append a new binding. -/
def dinsert {α : Type} (m : PyDict α) (k : String) (v : α) : PyDict α :=
  if m.any (fun p => p.1 = k) then m.map (fun p => if p.1 = k then (k, v) else p)
  else m ++ [(k, v)]

/-- Dict `m.update(n)`. -/
def dupdate {α : Type} (m n : PyDict α) : PyDict α :=
  n.foldl (fun acc p => dinsert acc p.1 p.2) m

/-- Python set `s.add(x)` on a duplicate-free list model of a set. -/
def pyInsert (s : List String) (x : String) : List String :=
  if x ∈ s then s else s ++ [x]

/-! ### JSON values (`json.loads` results; numbers modelled as integers) -/
inductive Json where
  | null
  | bool (b : Bool)
  | num (n : Int)
  | str (s : String)
  | arr (elems : List Json)
  | obj (fields : List (String × Json))

/-- Python truthiness of a decoded JSON value. -/
def jTruthy : Json → Bool
  | .null => false
  | .bool b => b
  | .num n => n ≠ 0
  | .str s => s ≠ ""
  | .arr xs => !xs.isEmpty
  | .obj kvs => !kvs.isEmpty

/-- Python `a or b` on decoded JSON values. -/
def jOr (a b : Json) : Json := if jTruthy a then a else b

/-- `row.get(k, d)` on a decoded JSON object (duplicate keys: last one wins,
as in `json.loads`). -/
def jget (kvs : List (String × Json)) (k : String) (d : Json) : Json :=
  match kvs.reverse.find? (fun p => p.1 = k) with
  | some p => p.2
  | none => d

/-- Python `repr` of a decoded JSON value (string escaping elided: the gate
only ever feeds the result to `.strip()`-style processing). -/
def pyRepr : Json → String
  | .null => "None"
  | .bool true => "True"
  | .bool false => "False"
  | .num n => toString n
  | .str s => "'" ++ s ++ "'"
  | .arr xs => "[" ++ String.intercalate (", ") (xs.attach.map (fun x => pyRepr x.1)) ++ "]"
  | .obj kvs =>
    "\x7b" ++ String.intercalate (", ")
      (kvs.attach.map (fun p => "'" ++ p.1.1 ++ "': " ++ pyRepr p.1.2)) ++ "\x7d"
  decreasing_by
    · have := List.sizeOf_lt_of_mem x.2
      simp_wf
      omega
    · obtain ⟨⟨k, v⟩, hp⟩ := p
      have := List.sizeOf_lt_of_mem hp
      simp_wf
      simp at this
      omega

/-- Python `str(x)` of a decoded JSON value. -/
def pyStr : Json → String
  | .str s => s
  | j => pyRepr j

/-- Digits-only parse used by Python `int(str)`. -/
def parseDigits (l : List Char) : Option Nat :=
  if l ≠ [] ∧ l.all (fun c => 48 ≤ c.toNat ∧ c.toNat ≤ 57) then some (digitsVal l) else none

/-- Python `int(s)` on a string: strip whitespace, optional sign, decimal digits. -/
def pyIntOfStr (s : String) : Option Int :=
  match stripListWith pyIsSpace s.data with
  | '-' :: rest => (parseDigits rest).map (fun n => -(n : Int))
  | '+' :: rest => (parseDigits rest).map (fun n => (n : Int))
  | t => (parseDigits t).map (fun n => (n : Int))

/-- Python `int(x)` on a decoded JSON value; raises on non-numeric input. -/
def pyInt : Json → Except PyExc Int
  | .num n => .ok n
  | .bool b => .ok (if b then 1 else 0)
  | .str s =>
    match pyIntOfStr s with
    | some n => .ok n
    | none => .error ⟨"ValueError", "invalid literal for int() with base 10: " ++ s⟩
  | .null => .error ⟨"TypeError", "int() argument cannot be NoneType"⟩
  | .arr _ => .error ⟨"TypeError", "int() argument cannot be list"⟩
  | .obj _ => .error ⟨"TypeError", "int() argument cannot be dict"⟩

/-! ### `_safe_json_extract` -/
def braceOpen : Char := Char.ofNat 123

def braceClose : Char := Char.ofNat 125

/-- The `{ ... }` fallback of `_safe_json_extract`. -/
def braceFallback (s : String) : Option String :=
  match pyFind braceOpen s.data, pyRFind braceClose s.data with
  | some l, some r =>
    if l < r then some (pyStrip ⟨(s.data.drop l).take (r + 1 - l)⟩) else none
  | _, _ => none

/-- `_safe_json_extract`: strip code fences and surrounding prose, return the
JSON-looking substring (from first `[` to last `]`, else first to last brace). -/
def safeJsonExtract (text : String) : Option String :=
  if text = "" then none
  else
    let s := pyStrip text
    let s :=
      if s.data.take 3 = [backtick, backtick, backtick] then
        let s1 := pyStrip (pyStripChar backtick s)
        match pySplitLines s1 with
        | [] => s1
        | l0 :: rest =>
          if pyLower (pyStrip l0) = "json" ∨ pyLower (pyStrip l0) = "javascript" then
            pyStrip (pyJoinNewline rest)
          else s1
      else s
    match pyFind '[' s.data, pyRFind ']' s.data with
    | some l, some r =>
      if l < r then some (pyStrip ⟨(s.data.drop l).take (r + 1 - l)⟩)
      else braceFallback s
    | _, _ => braceFallback s

/-! ### Decisions and response-row parsing (`_judge_batch`, parsing half) -/
/-- One judgment: `{keep, score, reason, brief}`. -/
structure Decision where
  keep : Bool
  score : Int
  reason : String
  brief : String
  deriving DecidableEq

/-- Python `s.rstrip()`. -/
def pyRStrip (s : String) : String :=
  ⟨(s.data.reverse.dropWhile pyIsSpace).reverse⟩

/-- Brief normalization of `_judge_batch`: strip; if nonempty, collapse
newlines and carriage returns to spaces, strip again, and hard-cap at 80
characters (right-stripped). -/
def normalizeBrief (b : String) : String :=
  let brief := pyStrip b
  if brief ≠ "" then
    let brief := pyStrip
      ⟨brief.data.map (fun c => if c = '\n' then ' ' else if c = '\r' then ' ' else c)⟩
    if 80 < brief.length then pyRStrip ⟨brief.data.take 80⟩ else brief
  else brief

/-- Processing of one response row: skip non-objects and blank ids, otherwise
build the decision (the `int(...)` conversion of `score` may raise). -/
def parseRow (row : Json) : Except PyExc (Option (String × Decision)) :=
  match row with
  | .obj kvs =>
    let rid := pyStrip (pyStr (jget kvs "id" (.str "")))
    if rid = "" then .ok none
    else
      let brief := normalizeBrief (pyStr (jget kvs "brief" (.str "")))
      match pyInt (jOr (jget kvs "score" (.num 0)) (.num 0)) with
      | .error e => .error e
      | .ok score =>
        .ok (some (rid,
          { keep := jTruthy (jget kvs "keep" (.bool false)),
            score := score,
            reason := pyStrip (pyStr (jget kvs "reason" (.str ""))),
            brief := brief }))
  | _ => .ok none

/-- The row loop of `_judge_batch`: `decisions[rid] = {...}` for each row. -/
def rowsLoop : List Json → PyDict Decision → Except PyExc (PyDict Decision)
  | [], acc => .ok acc
  | row :: rest, acc =>
    match parseRow row with
    | .error e => .error e
    | .ok none => rowsLoop rest acc
    | .ok (some (k, v)) => rowsLoop rest (dinsert acc k v)

/-- The parsing half of `_judge_batch`: extract, `json.loads` (abstracted as
`loads`), require a JSON array, then run the row loop. -/
def judgeBatchFromRaw (loads : String → Option Json) (raw : String) :
    Except PyExc (PyDict Decision) :=
  match safeJsonExtract raw with
  | none => .error ⟨"ValueError", "模型输出未找到可解析的 JSON"⟩
  | some ex =>
    if ex = "" then .error ⟨"ValueError", "模型输出未找到可解析的 JSON"⟩
    else
      match loads ex with
      | none => .error ⟨"JSONDecodeError", "Expecting value"⟩
      | some (.arr rows) => rowsLoop rows []
      | some _ => .error ⟨"ValueError", "模型输出 JSON 不是数组"⟩

/-! ### Input data model

A title entry / group / report dict carries the string fields the gate reads
(`""` doubling for an absent key, which the source cannot distinguish: every
read goes through `... or ""`), the observable `count` keys as `Option Int`,
and an opaque `extra` payload standing for all fields the gate never
inspects. -/
/-- One title entry of a group. `brief` is the annotation slot the rewriter
may fill (absent = `""`). -/
structure Entry where
  title : String := ""
  source_name : String := ""
  mobileUrl : String := ""
  mobile_url : String := ""
  url : String := ""
  brief : String := ""
  extra : String := ""
  deriving DecidableEq

/-- One group of `stats` / `new_titles` / `rss_items` / `rss_new_items`. -/
structure Group where
  word : String := ""
  count : Option Int := none
  titles : List Entry := []
  extra : String := ""
  deriving DecidableEq

/-- The `report_data` dict: `stats`, `new_titles`, `total_new_count`. -/
structure ReportData where
  stats : List Group := []
  newTitles : List Group := []
  totalNewCount : Option Int := none
  extra : String := ""
  deriving DecidableEq

/-- A flattened candidate item produced by `_collect_candidates`. -/
structure Item where
  id : String
  title : String
  source_name : String
  group : String
  /-- the `section` key (renamed: `section` is a Lean keyword) -/
  sectionTag : String
  url : String
  deriving DecidableEq

/-- The gate configuration fields `filter_before_send` consults. -/
structure GateConfig where
  enabled : Bool
  apiKey : String
  minScore : Int
  maxItems : Int
  batchSize : Int
  deriving DecidableEq

/-- `QualityGateStats` (log-only summary). -/
structure QualityGateStats where
  total_items : Int := 0
  evaluated_items : Int := 0
  kept_items : Int := 0
  dropped_items : Int := 0
  error : String := ""
  deriving DecidableEq

/-! ### Candidate Collector (`_collect_candidates`) -/
/-- The per-section collection walk: enumerate groups and titles, skip
blank-title entries, and build the flattened items. `useWord` is false for
`hot_new`, whose loop hard-codes `group = ""`. -/
def itemsOfGroups (sec : String) (useWord : Bool) (groups : List Group) : List Item :=
  (groups.enum).flatMap (fun gg =>
    let gi := gg.1
    let g := gg.2
    let group := if useWord then pyStrip g.word else ""
    (g.titles.enum).filterMap (fun tt =>
      let ti := tt.1
      let t := tt.2
      let title := pyStrip t.title
      if title = "" then none
      else some
        { id := mkId sec gi ti
          title := title
          source_name := pyStrip t.source_name
          group := group
          sectionTag := sec
          url := pyStrip (strOr (strOr t.mobileUrl t.mobile_url) t.url) }))

/-- `_collect_candidates`: the four sections in source order. (The returned
pointer map is not consumed anywhere — `_apply_kept_ids` recomputes ids
positionally — so it is not modelled.) -/
def collectCandidates (rd : ReportData) (rss rssNew : Option (List Group)) : List Item :=
  itemsOfGroups ("hot_stats") true rd.stats
    ++ itemsOfGroups ("hot_new") false rd.newTitles
    ++ itemsOfGroups ("rss_stats") true (rss.getD [])
    ++ itemsOfGroups ("rss_new") true (rssNew.getD [])

/-! ### Batch Judge loop (`_judge_in_batches`) -/
/-- Contiguous chunks, with structural fuel (one unit per chunk step). -/
def chunksFuel {α : Type} (b : Nat) : Nat → List α → List (List α)
  | 0, _ => []
  | _ + 1, [] => []
  | fuel + 1, x :: rest =>
    (x :: rest).take (b + 1) :: chunksFuel b fuel ((x :: rest).drop (b + 1))

/-- Contiguous chunks of size `b + 1` (the `items[start:start+batch_size]`
slices of the source loop). -/
def chunksAux {α : Type} (b : Nat) (l : List α) : List (List α) :=
  chunksFuel b l.length l

/-- Contiguous chunks of size at most `bs` (for `bs > 0`). -/
def chunksOf {α : Type} (bs : Nat) (l : List α) : List (List α) :=
  if bs = 0 then [] else chunksAux (bs - 1) l

/-- The batch loop of `_judge_in_batches` with structural fuel (one unit per
chunk step), instrumented with the trace of chunks actually sent to the
judgment service. A failing chunk aborts the loop; decisions of successful
chunks are merged with `dict.update`. -/
def judgeChunksFuel (judgeOne : List Item → Except PyExc (PyDict Decision)) (b : Nat) :
    Nat → List Item → PyDict Decision → List (List Item) →
      Except PyExc (PyDict Decision) × List (List Item)
  | 0, _, acc, calls => (.ok acc, calls)
  | _ + 1, [], acc, calls => (.ok acc, calls)
  | fuel + 1, x :: rest, acc, calls =>
    let chunk := (x :: rest).take (b + 1)
    match judgeOne chunk with
    | .error e => (.error e, calls ++ [chunk])
    | .ok cd =>
      judgeChunksFuel judgeOne b fuel ((x :: rest).drop (b + 1))
        (if cd.isEmpty then acc else dupdate acc cd) (calls ++ [chunk])

/-- The batch loop of `_judge_in_batches` (fuel instantiated to the list
length, which always suffices). -/
def judgeChunksTr (judgeOne : List Item → Except PyExc (PyDict Decision)) (b : Nat)
    (l : List Item) (acc : PyDict Decision) (calls : List (List Item)) :
    Except PyExc (PyDict Decision) × List (List Item) :=
  judgeChunksFuel judgeOne b l.length l acc calls

/-- `_judge_in_batches` with its call trace: empty input short-circuits to
`{}`; `batch_size <= 0` degrades to a single batch. -/
def judgeInBatchesTr (judgeOne : List Item → Except PyExc (PyDict Decision))
    (batchSize : Int) (items : List Item) :
    Except PyExc (PyDict Decision) × List (List Item) :=
  if items.isEmpty then (.ok [], [])
  else
    let bs : Nat := if 0 < batchSize then batchSize.toNat else items.length
    judgeChunksTr judgeOne (bs - 1) items [] []

/-! ### Decision Merger and Structure Rewriter -/
/-- The keep test of the merger loop: no decision defaults to keep;
otherwise `keep and score >= min_score`. -/
def keepCond (minScore : Int) (decisions : PyDict Decision) (id : String) : Bool :=
  match dget decisions id with
  | none => true
  | some d => d.keep && decide (minScore ≤ d.score)

/-- The merger loop of `filter_before_send`, one item at a time. -/
def keepIdsGo (minScore : Int) (decisions : PyDict Decision) :
    List Item → List String → List String
  | [], acc => acc
  | it :: rest, acc =>
    keepIdsGo minScore decisions rest
      (if keepCond minScore decisions it.id then pyInsert acc it.id else acc)

/-- The `keep_ids` set built by `filter_before_send` over all candidates. -/
def computeKeepIds (minScore : Int) (items : List Item) (decisions : PyDict Decision) :
    List String :=
  keepIdsGo minScore decisions items []

/-- The rewriter's annotation step: `if d.get("brief"): t["brief"] = d["brief"]`. -/
def annotEntry (d : Option Decision) (t : Entry) : Entry :=
  match d with
  | some dd => if dd.brief ≠ "" then { t with brief := dd.brief } else t
  | none => t

/-- One step of the inner title loop of `_apply_kept_ids`
(`for ti, t in enumerate(titles)`, appending kept entries). -/
def keptTitlesGo (sec : String) (gi : Nat) (keepIds : List String)
    (decisions : PyDict Decision) : List Entry → List Entry → Nat → List Entry
  | [], acc, _ => acc
  | t :: rest, acc, ti =>
    let tid := mkId sec gi ti
    if tid ∈ keepIds then
      keptTitlesGo sec gi keepIds decisions rest (acc ++ [annotEntry (dget decisions tid) t])
        (ti + 1)
    else keptTitlesGo sec gi keepIds decisions rest acc (ti + 1)

/-- The inner title loop of `_apply_kept_ids`: keep the entries whose
positional id is in `keep_ids`, annotating each kept entry. -/
def keptTitlesLoop (sec : String) (gi : Nat) (keepIds : List String)
    (decisions : PyDict Decision) (titles : List Entry) : List Entry :=
  keptTitlesGo sec gi keepIds decisions titles [] 0

/-- One step of the outer group loop of `_apply_kept_ids`
(`for gi, g in enumerate(...)`, appending surviving groups). -/
def sectionGo (sec : String) (keepIds : List String) (decisions : PyDict Decision)
    (withCount : Bool) : List Group → List Group → Nat → List Group
  | [], acc, _ => acc
  | g :: rest, acc, gi =>
    let kept := keptTitlesLoop sec gi keepIds decisions g.titles
    if kept.isEmpty then sectionGo sec keepIds decisions withCount rest acc (gi + 1)
    else
      sectionGo sec keepIds decisions withCount rest
        (acc ++
          [{ g with
              titles := kept
              count := if withCount then some (kept.length : Int) else g.count }])
        (gi + 1)

/-- The outer group loop of `_apply_kept_ids` for one section: rebuild each
group's titles, update `count` (except for `hot_new`), and drop groups whose
kept list is empty. -/
def sectionLoop (sec : String) (keepIds : List String) (decisions : PyDict Decision)
    (withCount : Bool) (groups : List Group) : List Group :=
  sectionGo sec keepIds decisions withCount groups [] 0

/-- `_apply_kept_ids` (value level; the deep copy of the source is the
explicit-state heap model `applyKeptIdsH` below). An empty (falsy) rss list
argument is turned into `none` by the `if rss_items else None` guards. -/
def applyKeptIds (rd : ReportData) (rss rssNew : Option (List Group))
    (keepIds : List String) (decisions : PyDict Decision) :
    ReportData × Option (List Group) × Option (List Group) :=
  let rss0 : Option (List Group) :=
    match rss with
    | some l => if l.isEmpty then none else some l
    | none => none
  let rssNew0 : Option (List Group) :=
    match rssNew with
    | some l => if l.isEmpty then none else some l
    | none => none
  let newStats := sectionLoop ("hot_stats") keepIds decisions true rd.stats
  let newSources := sectionLoop ("hot_new") keepIds decisions false rd.newTitles
  let rd' :=
    { rd with
        stats := newStats
        newTitles := newSources
        totalNewCount := some ((newSources.map (fun s => (s.titles.length : Int))).sum) }
  let rss' := rss0.map (sectionLoop ("rss_stats") keepIds decisions true)
  let rssNew' := rssNew0.map (sectionLoop ("rss_new") keepIds decisions true)
  (rd', rss', rssNew')

/-! ### `filter_before_send` -/
/-- The evaluated subset: the first `max_items` candidates when the cap is
positive, all of them otherwise. -/
def evalItemsOf (maxItems : Int) (items : List Item) : List Item :=
  if 0 < maxItems then items.take maxItems.toNat else items

/-- `filter_before_send`. `judgeOne` is the oracle for one `_judge_batch`
call (network plus parsing; `judgeBatchOracle` below composes it from a raw
`chat` oracle and the parsing half). -/
def filterBeforeSend (cfg : GateConfig)
    (judgeOne : List Item → Except PyExc (PyDict Decision))
    (rd : ReportData) (rss rssNew : Option (List Group)) :
    ReportData × Option (List Group) × Option (List Group) × QualityGateStats :=
  if !cfg.enabled then (rd, rss, rssNew, {})
  else if pyStrip cfg.apiKey = "" then
    (rd, rss, rssNew, { error := "未配置 AI_API_KEY，跳过质量复筛" })
  else
    let items := collectCandidates rd rss rssNew
    let total := (items.length : Int)
    if items.isEmpty then (rd, rss, rssNew, { total_items := total })
    else
      let evalItems := evalItemsOf cfg.maxItems items
      let evaluated := (evalItems.length : Int)
      match (judgeInBatchesTr judgeOne cfg.batchSize evalItems).1 with
      | .error e =>
        (rd, rss, rssNew,
          { total_items := total
            evaluated_items := evaluated
            error := e.name ++ ": " ++ e.msg })
      | .ok decisions =>
        let keepIds := computeKeepIds cfg.minScore items decisions
        let out := applyKeptIds rd rss rssNew keepIds decisions
        (out.1, out.2.1, out.2.2,
          { total_items := total
            evaluated_items := evaluated
            kept_items := (keepIds.length : Int)
            dropped_items := max 0 (total - (keepIds.length : Int)) })

/-- `_judge_batch` as a judge oracle: one `chat` network call (abstracted)
followed by the parsing half. -/
def judgeBatchOracle (loads : String → Option Json)
    (chat : List Item → Except PyExc String) : List Item → Except PyExc (PyDict Decision) :=
  fun items =>
    match chat items with
    | .error e => .error e
    | .ok raw => judgeBatchFromRaw loads raw

/-! ### Explicit-heap model of the mutation in `_apply_kept_ids`

Python objects live on a heap; `copy.deepcopy` allocates fresh objects and
the in-place writes (`t["brief"] = ...`, `g["titles"] = ...`,
`g["count"] = ...`, `report_data[...] = ...`) are modelled as stores. Heap
addresses are indices into an address-ordered store; allocation appends.
Lists built afresh by the loops (`kept_titles`, `new_stats`, ...) are
values, since the source never mutates an existing list in place. -/
/-- A heap object: a title-entry dict, a group dict (its `titles` list holds
entry addresses), or the `report_data` dict (group addresses). -/
inductive HObj where
  | entry (e : Entry)
  | group (word : String) (count : Option Int) (titles : List Nat) (extra : String)
  | report (stats : List Nat) (newTitles : List Nat) (totalNewCount : Option Int)
      (extra : String)
  deriving DecidableEq

abbrev Heap := List HObj

def hget (h : Heap) (a : Nat) : Option HObj := h[a]?

def hset (h : Heap) (a : Nat) (o : HObj) : Heap := h.set a o

def halloc (h : Heap) (o : HObj) : Heap × Nat := (h ++ [o], h.length)

/-- `copy.deepcopy` of a title entry. -/
def copyEntryH (h : Heap) (a : Nat) : Heap × Nat :=
  match hget h a with
  | some (.entry e) => halloc h (.entry e)
  | _ => halloc h (.entry {})

def copyEntriesH : Heap → List Nat → Heap × List Nat
  | h, [] => (h, [])
  | h, a :: rest =>
    let r := copyEntryH h a
    let r2 := copyEntriesH r.1 rest
    (r2.1, r.2 :: r2.2)

/-- `copy.deepcopy` of a group. -/
def copyGroupH (h : Heap) (a : Nat) : Heap × Nat :=
  match hget h a with
  | some (.group w c ts ex) =>
    let r := copyEntriesH h ts
    halloc r.1 (.group w c r.2 ex)
  | _ => halloc h (.group "" none [] "")

def copyGroupsH : Heap → List Nat → Heap × List Nat
  | h, [] => (h, [])
  | h, a :: rest =>
    let r := copyGroupH h a
    let r2 := copyGroupsH r.1 rest
    (r2.1, r.2 :: r2.2)

/-- `copy.deepcopy` of `report_data`. -/
def copyReportH (h : Heap) (a : Nat) : Heap × Nat :=
  match hget h a with
  | some (.report ss nt tnc ex) =>
    let r1 := copyGroupsH h ss
    let r2 := copyGroupsH r1.1 nt
    halloc r2.1 (.report r1.2 r2.2 tnc ex)
  | _ => halloc h (.report [] [] none "")

/-- Read back a title entry (for the read-only stages). -/
def readEntryH (h : Heap) (a : Nat) : Entry :=
  match hget h a with
  | some (.entry e) => e
  | _ => {}

/-- Read back a group. -/
def readGroupH (h : Heap) (a : Nat) : Group :=
  match hget h a with
  | some (.group w c ts ex) =>
    { word := w, count := c, titles := ts.map (readEntryH h), extra := ex }
  | _ => {}

/-- Read back `report_data`. -/
def readReportH (h : Heap) (a : Nat) : ReportData :=
  match hget h a with
  | some (.report ss nt tnc ex) =>
    { stats := ss.map (readGroupH h), newTitles := nt.map (readGroupH h)
      totalNewCount := tnc, extra := ex }
  | _ => {}

/-- The in-place annotation write `t["brief"] = d["brief"]` for one kept
entry address. -/
def annotWriteH (h : Heap) (a : Nat) (d : Option Decision) : Heap :=
  match d with
  | some dd =>
    if dd.brief ≠ "" then
      match hget h a with
      | some (.entry e) => hset h a (.entry { e with brief := dd.brief })
      | _ => h
    else h
  | none => h

/-- Heap version of the inner title loop: annotate kept entries in place and
collect their addresses. -/
def keptTitlesGoH (sec : String) (gi : Nat) (keepIds : List String)
    (decisions : PyDict Decision) : List Nat → Heap → List Nat → Nat → Heap × List Nat
  | [], h, kept, _ => (h, kept)
  | a :: rest, h, kept, ti =>
    let tid := mkId sec gi ti
    if tid ∈ keepIds then
      keptTitlesGoH sec gi keepIds decisions rest (annotWriteH h a (dget decisions tid))
        (kept ++ [a]) (ti + 1)
    else keptTitlesGoH sec gi keepIds decisions rest h kept (ti + 1)

/-- Heap version of `keptTitlesLoop`. -/
def keptTitlesLoopH (h : Heap) (sec : String) (gi : Nat) (keepIds : List String)
    (decisions : PyDict Decision) (titleAddrs : List Nat) : Heap × List Nat :=
  keptTitlesGoH sec gi keepIds decisions titleAddrs h [] 0

/-- Heap version of the outer group loop: store the rebuilt `titles` list and
updated `count` into each surviving group object. -/
def sectionGoH (sec : String) (keepIds : List String) (decisions : PyDict Decision)
    (withCount : Bool) : List Nat → Heap → List Nat → Nat → Heap × List Nat
  | [], h, out, _ => (h, out)
  | a :: rest, h, out, gi =>
    match hget h a with
    | some (.group w c ts ex) =>
      let k := keptTitlesLoopH h sec gi keepIds decisions ts
      if k.2.isEmpty then sectionGoH sec keepIds decisions withCount rest k.1 out (gi + 1)
      else
        sectionGoH sec keepIds decisions withCount rest
          (hset k.1 a (.group w (if withCount then some (k.2.length : Int) else c) k.2 ex))
          (out ++ [a]) (gi + 1)
    | _ => sectionGoH sec keepIds decisions withCount rest h out (gi + 1)

/-- Heap version of `sectionLoop`. -/
def sectionLoopH (h : Heap) (sec : String) (keepIds : List String)
    (decisions : PyDict Decision) (withCount : Bool) (groupAddrs : List Nat) :
    Heap × List Nat :=
  sectionGoH sec keepIds decisions withCount groupAddrs h [] 0

/-- The `rss_items = copy.deepcopy(rss_items) if rss_items else None` step
on the heap (shared by both rss arguments). -/
def copyRssH (h : Heap) (rssA : Option (List Nat)) : Heap × Option (List Nat) :=
  match rssA with
  | some l =>
    if l.isEmpty then (h, none)
    else
      let r := copyGroupsH h l
      (r.1, some r.2)
  | none => (h, none)

/-- Length of a heap group's titles list (`len(g["titles"])` on a heap
reference), used to recompute `total_new_count`. -/
def groupLen (h : Heap) (a : Nat) : Int :=
  match hget h a with
  | some (.group _ _ ts _) => (ts.length : Int)
  | _ => 0

/-- The rewrite phase of `_apply_kept_ids` on the (already copied) roots:
the four section loops and the three `report_data` field writes. -/
def rewriteSectionsH (h : Heap) (rd : Nat) (rssC rssNewC : Option (List Nat))
    (keepIds : List String) (decisions : PyDict Decision) :
    Heap × Nat × Option (List Nat) × Option (List Nat) :=
  match hget h rd with
  | some (.report sAddrs ntAddrs tnc ex) =>
    let s1 := sectionLoopH h ("hot_stats") keepIds decisions true sAddrs
    let h5 := hset s1.1 rd (.report s1.2 ntAddrs tnc ex)
    let s2 := sectionLoopH h5 ("hot_new") keepIds decisions false ntAddrs
    let h6 := hset s2.1 rd (.report s1.2 s2.2 tnc ex)
    let tnc' : Int := (s2.2.map (groupLen h6)).sum
    let h7 := hset h6 rd (.report s1.2 s2.2 (some tnc') ex)
    let s3 : Heap × Option (List Nat) :=
      match rssC with
      | some l =>
        let r := sectionLoopH h7 ("rss_stats") keepIds decisions true l
        (r.1, some r.2)
      | none => (h7, none)
    let s4 : Heap × Option (List Nat) :=
      match rssNewC with
      | some l =>
        let r := sectionLoopH s3.1 ("rss_new") keepIds decisions true l
        (r.1, some r.2)
      | none => (s3.1, none)
    (s4.1, rd, s3.2, s4.2)
  | _ => (h, rd, none, none)

/-- `_apply_kept_ids` on the heap: deep-copy the three roots, then run the
rewrite loops on the copies, never touching the original objects. -/
def applyKeptIdsH (h : Heap) (rdA : Nat) (rssA rssNewA : Option (List Nat))
    (keepIds : List String) (decisions : PyDict Decision) :
    Heap × Nat × Option (List Nat) × Option (List Nat) :=
  let c1 := copyReportH h rdA
  let c2 := copyRssH c1.1 rssA
  let c3 := copyRssH c2.1 rssNewA
  rewriteSectionsH c3.1 c1.2 c2.2 c3.2 keepIds decisions

/-- `filter_before_send` on the heap: the non-rewriting stages only read;
every path returns, the success path ending in `applyKeptIdsH`. -/
def filterBeforeSendH (cfg : GateConfig)
    (judgeOne : List Item → Except PyExc (PyDict Decision))
    (h : Heap) (rdA : Nat) (rssA rssNewA : Option (List Nat)) :
    Heap × Nat × Option (List Nat) × Option (List Nat) × QualityGateStats :=
  if !cfg.enabled then (h, rdA, rssA, rssNewA, {})
  else if pyStrip cfg.apiKey = "" then
    (h, rdA, rssA, rssNewA, { error := "未配置 AI_API_KEY，跳过质量复筛" })
  else
    let rd := readReportH h rdA
    let rssV := rssA.map (fun l => l.map (readGroupH h))
    let rssNewV := rssNewA.map (fun l => l.map (readGroupH h))
    let items := collectCandidates rd rssV rssNewV
    let total := (items.length : Int)
    if items.isEmpty then (h, rdA, rssA, rssNewA, { total_items := total })
    else
      let evalItems := evalItemsOf cfg.maxItems items
      let evaluated := (evalItems.length : Int)
      match (judgeInBatchesTr judgeOne cfg.batchSize evalItems).1 with
      | .error e =>
        (h, rdA, rssA, rssNewA,
          { total_items := total
            evaluated_items := evaluated
            error := e.name ++ ": " ++ e.msg })
      | .ok decisions =>
        let keepIds := computeKeepIds cfg.minScore items decisions
        let out := applyKeptIdsH h rdA rssA rssNewA keepIds decisions
        (out.1, out.2.1, out.2.2.1, out.2.2.2,
          { total_items := total
            evaluated_items := evaluated
            kept_items := (keepIds.length : Int)
            dropped_items := max 0 (total - (keepIds.length : Int)) })

/-! ## Lemmas: declarative form of the rewriter loops -/
/-- Declarative form of `keptTitlesLoop`: keep (and annotate) exactly the
positions whose id is in `keep_ids`, preserving order. -/
def keptTitlesSpec (sec : String) (gi : Nat) (keepIds : List String)
    (decisions : PyDict Decision) (titles : List Entry) : List Entry :=
  (titles.enum).filterMap (fun tt =>
    if mkId sec gi tt.1 ∈ keepIds then
      some (annotEntry (dget decisions (mkId sec gi tt.1)) tt.2)
    else none)

/-- Declarative form of `sectionLoop`: rebuild each group, drop it if no
title survived. -/
def sectionSpec (sec : String) (keepIds : List String) (decisions : PyDict Decision)
    (withCount : Bool) (groups : List Group) : List Group :=
  (groups.enum).filterMap (fun gg =>
    let kept := keptTitlesSpec sec gg.1 keepIds decisions gg.2.titles
    if kept.isEmpty then none
    else some
      { gg.2 with
          titles := kept
          count := if withCount then some (kept.length : Int) else gg.2.count })

/-! ## Lemmas: collected candidate ids -/
/-- The ids contributed by one section, directly as positional ids. -/
def sectionIds (sec : String) (gs : List Group) : List String :=
  gs.enum.flatMap (fun gg =>
    (gg.2.titles.enum).filterMap (fun tt =>
      if pyStrip tt.2.title = "" then none else some (mkId sec gg.1 tt.1)))

/-- C7 fixture: a service brief of length 95 with an embedded newline. -/
def briefRawC7 : String :=
  String.mk (List.replicate 47 'a') ++ "\n" ++ String.mk (List.replicate 47 'b')

/-- C7 fixture: its normalized form (length 80, newline collapsed). -/
def briefNormC7 : String :=
  String.mk (List.replicate 47 'a') ++ " " ++ String.mk (List.replicate 32 'b')

/-- C7 fixture: the raw service response. -/
def rawC7 : String :=
  "[\x7b\"id\": \"x\", \"keep\": true, \"score\": 80, \"brief\": \"" ++ briefRawC7
    ++ "\"\x7d]"

/-- C7 fixture: what `json.loads` yields on that response. -/
def jsonC7 : Json :=
  .arr [.obj [("id", .str "x"), ("keep", .bool true), ("score", .num 80),
    ("brief", .str briefRawC7)]]

def loadsC7 : String → Option Json := fun s => if s = rawC7 then some jsonC7 else none

def dC7 : Decision := ⟨true, 80, "", briefNormC7⟩

/-- C5 fixture: a parser that decodes `[1, 2]`, exactly as `json.loads`
does. -/
def loadsC5 : String → Option Json :=
  fun s => if s = "[1, 2]" then some (.arr [.num 1, .num 2]) else none

/-- C5 error fixture: a response row whose `score` is the non-numeric
string `"x"`, so `int(score)` raises. -/
def rowC5E : Json := .obj [("id", .str "a"), ("score", .str "x")]

def rawC5E : String := "[\x7b\"id\": \"a\", \"score\": \"x\"\x7d]"

def loadsC5E : String → Option Json :=
  fun s => if s = rawC5E then some (.arr [rowC5E]) else none

/-- C6 fixture: one group with two titles; only the first id is kept. -/
def rdC6 : ReportData :=
  { stats := [⟨"g", some 2, [{ title := "A" }, { title := "B" }], ""⟩] }

/-- C6 fixture: the surviving group the rewriter produces. -/
def gC6 : Group := ⟨"g", some 1, [{ title := "A" }], ""⟩

/-- C4 / C10 / C3 fixture: gate configuration with the defaults. -/
def cfgE2E : GateConfig := ⟨true, "key", 60, 30, 40⟩

/-- C4 fixture: one hot-stats group (`A` kept, `B` dropped) and one
new-titles section (`C` kept, no count field). -/
def rdC4 : ReportData :=
  { stats := [⟨"AI", some 2, [{ title := "A" }, { title := "B" }], ""⟩]
    newTitles := [⟨"", none, [{ title := "C" }], ""⟩]
    totalNewCount := some 1 }

def respC4 : String :=
  "[\x7b\"id\": \"hot_stats:0:0\", \"keep\": true, \"score\": 80, \"brief\": \"X\"\x7d, "
    ++ "\x7b\"id\": \"hot_stats:0:1\", \"keep\": false, \"score\": 30\x7d, "
    ++ "\x7b\"id\": \"hot_new:0:0\", \"keep\": true, \"score\": 90\x7d]"

def jsonC4 : Json :=
  .arr [.obj [("id", .str "hot_stats:0:0"), ("keep", .bool true), ("score", .num 80),
      ("brief", .str "X")],
    .obj [("id", .str "hot_stats:0:1"), ("keep", .bool false), ("score", .num 30)],
    .obj [("id", .str "hot_new:0:0"), ("keep", .bool true), ("score", .num 90)]]

def judgeOneC4 : List Item → Except PyExc (PyDict Decision) :=
  judgeBatchOracle (fun s => if s = respC4 then some jsonC4 else none)
    (fun _ => .ok respC4)

/-- C3 fixture: cap the evaluation at one item. -/
def cfgC3 : GateConfig := ⟨true, "key", 60, 1, 40⟩

/-- C3 fixture: two candidates; only `A` (position 0) is within the cap. -/
def rdC3 : ReportData :=
  { stats := [⟨"g", some 2, [{ title := "A" }, { title := "B" }], ""⟩] }

/-- C3 fixture: the service answers with a decision for the **unsent** id
`hot_stats:0:1` (keep = false). -/
def respC3 : String :=
  "[\x7b\"id\": \"hot_stats:0:0\", \"keep\": true, \"score\": 90\x7d, "
    ++ "\x7b\"id\": \"hot_stats:0:1\", \"keep\": false, \"score\": 0\x7d]"

def jsonC3 : Json :=
  .arr [.obj [("id", .str "hot_stats:0:0"), ("keep", .bool true), ("score", .num 90)],
    .obj [("id", .str "hot_stats:0:1"), ("keep", .bool false), ("score", .num 0)]]

def judgeOneC3 : List Item → Except PyExc (PyDict Decision) :=
  judgeBatchOracle (fun s => if s = respC3 then some jsonC3 else none)
    (fun _ => .ok respC3)

/-- C10 fixture: a whitespace-only title at position 0 next to a real one. -/
def rdC10 : ReportData :=
  { stats := [⟨"g", some 2, [{ title := "  " }, { title := "B" }], ""⟩] }

def respC10 : String :=
  "[\x7b\"id\": \"hot_stats:0:1\", \"keep\": true, \"score\": 90\x7d]"

def jsonC10 : Json :=
  .arr [.obj [("id", .str "hot_stats:0:1"), ("keep", .bool true), ("score", .num 90)]]

def judgeOneC10 : List Item → Except PyExc (PyDict Decision) :=
  judgeBatchOracle (fun s => if s = respC10 then some jsonC10 else none)
    (fun _ => .ok respC10)

/-- The child addresses held by a heap object. -/
def objAddrs : HObj → List Nat
  | .entry _ => []
  | .group _ _ ts _ => ts
  | .report ss nt _ _ => ss ++ nt

/-- Every object at an address `≥ N` points only to addresses `≥ N` (true of
everything `copy.deepcopy` allocates above the original heap). -/
def TailClosed (N : Nat) (h : Heap) : Prop :=
  ∀ a o, N ≤ a → hget h a = some o → ∀ b ∈ objAddrs o, N ≤ b

/-- C9 witness fixtures: a three-object heap (entry, group, report), a
fully-enabled config and a trivial judge. -/
def hC9 : Heap :=
  [HObj.entry { title := "A" }, HObj.group ("AI") (some 1) [0] "",
   HObj.report [1] [] (some 0) ""]

def cfgC9 : GateConfig :=
  { enabled := true, apiKey := "k", minScore := 60, maxItems := 30, batchSize := 40 }

def judgeC9 : List Item → Except PyExc (PyDict Decision) := fun _ => .ok []

/-- C3 amended-claim fixture: decisions only for the one evaluated id. -/
def dsC3W : PyDict Decision := [("hot_stats:0:0", ⟨true, 90, "", ""⟩)]

/-! ## Theorems -/

theorem digitChar_toNat {d : Nat} (h : d < 10) : (digitChar d).toNat = 48 + d := by
  interval_cases d <;> decide

theorem digitChar_ne_colon {d : Nat} (h : d < 10) : digitChar d ≠ ':' := by
  interval_cases d <;> decide

theorem natCharsAux_congr :
    ∀ (fuel fuel' n : Nat), n < fuel → n < fuel' →
      natCharsAux fuel n = natCharsAux fuel' n := by
  intro fuel
  induction fuel with
  | zero => intro fuel' n h; omega
  | succ fuel ih =>
    intro fuel' n h h'
    cases fuel' with
    | zero => omega
    | succ fuel' =>
      rw [natCharsAux, natCharsAux]
      by_cases h10 : n < 10
      · rw [if_pos h10, if_pos h10]
      · rw [if_neg h10, if_neg h10, ih fuel' (n / 10) (by omega) (by omega)]

/-- The recursion equation of `natChars` (decimal rendering). -/
theorem natChars_eq (n : Nat) :
    natChars n = if n < 10 then [digitChar n] else natChars (n / 10) ++ [digitChar (n % 10)] := by
  unfold natChars
  rw [natCharsAux]
  by_cases h10 : n < 10
  · rw [if_pos h10, if_pos h10]
  · rw [if_neg h10, if_neg h10]
    have hd : n / 10 < n := Nat.div_lt_self (by omega) (by omega)
    rw [natCharsAux_congr n (n / 10 + 1) (n / 10) (by omega) (by omega)]

theorem natChars_ne_nil (n : Nat) : natChars n ≠ [] := by
  rw [natChars_eq]
  split
  · simp
  · simp

theorem natChars_no_colon (n : Nat) : ∀ c ∈ natChars n, c ≠ ':' := by
  induction n using Nat.strong_induction_on with
  | _ n ih =>
    rw [natChars_eq]
    split
    · next h =>
      intro c hc
      simp at hc
      subst hc
      exact digitChar_ne_colon h
    · next h =>
      intro c hc
      simp at hc
      rcases hc with hc | hc
      · exact ih (n / 10) (Nat.div_lt_self (by omega) (by omega)) c hc
      · subst hc
        exact digitChar_ne_colon (Nat.mod_lt _ (by omega))

theorem digitsVal_append_digit (l : List Char) (c : Char) :
    digitsVal (l ++ [c]) = 10 * digitsVal l + (c.toNat - 48) := by
  simp [digitsVal]

theorem digitsVal_natChars (n : Nat) : digitsVal (natChars n) = n := by
  induction n using Nat.strong_induction_on with
  | _ n ih =>
    rw [natChars_eq]
    split
    · next h =>
      simp [digitsVal, digitChar_toNat h]
    · next h =>
      rw [digitsVal_append_digit, ih (n / 10) (Nat.div_lt_self (by omega) (by omega)),
        digitChar_toNat (Nat.mod_lt _ (by omega))]
      omega

theorem natChars_injective : Function.Injective natChars := by
  intro a b h
  have := digitsVal_natChars a
  rw [h, digitsVal_natChars] at this
  omega

/-- Splitting at a colon is unambiguous when neither left part contains one. -/
theorem colon_split_unique :
    ∀ (xs xs' ys ys' : List Char), (∀ c ∈ xs, c ≠ ':') → (∀ c ∈ xs', c ≠ ':') →
      xs ++ ':' :: ys = xs' ++ ':' :: ys' → xs = xs' ∧ ys = ys' := by
  intro xs
  induction xs with
  | nil =>
    intro xs' ys ys' _ hx' h
    cases xs' with
    | nil => simpa using h
    | cons a t =>
      simp at h
      exact absurd h.1.symm (hx' a (by simp))
  | cons a t ih =>
    intro xs' ys ys' hx hx' h
    cases xs' with
    | nil =>
      simp at h
      exact absurd h.1 (hx a (by simp))
    | cons b t' =>
      simp at h
      obtain ⟨hab, hrest⟩ := h
      have := ih t' ys ys' (fun c hc => hx c (by simp [hc])) (fun c hc => hx' c (by simp [hc])) hrest
      simp [hab, this.1, this.2]

theorem mkId_data (sec : String) (gi ti : Nat) :
    (mkId sec gi ti).data = sec.data ++ ':' :: (natChars gi ++ ':' :: natChars ti) := by
  simp [mkId, pyNatStr, String.data_append]

/-- `mkId` is injective on colon-free section tags. -/
theorem mkId_injective {sec sec' : String} {gi ti gi' ti' : Nat}
    (hs : ∀ c ∈ sec.data, c ≠ ':') (hs' : ∀ c ∈ sec'.data, c ≠ ':')
    (h : mkId sec gi ti = mkId sec' gi' ti') : sec = sec' ∧ gi = gi' ∧ ti = ti' := by
  have hd : (mkId sec gi ti).data = (mkId sec' gi' ti').data := by rw [h]
  rw [mkId_data, mkId_data] at hd
  obtain ⟨h1, h2⟩ := colon_split_unique _ _ _ _ hs hs' hd
  obtain ⟨h3, h4⟩ := colon_split_unique _ _ _ _ (natChars_no_colon gi) (natChars_no_colon gi') h2
  refine ⟨?_, natChars_injective h3, natChars_injective h4⟩
  cases sec
  cases sec'
  exact congrArg String.mk h1

theorem sectionTags_no_colon : ∀ s ∈ sectionTags, ∀ c ∈ s.data, c ≠ ':' := by decide

theorem keptTitlesGo_eq (sec : String) (gi : Nat) (keepIds : List String)
    (decisions : PyDict Decision) :
    ∀ (titles : List Entry) (acc : List Entry) (ti0 : Nat),
      keptTitlesGo sec gi keepIds decisions titles acc ti0 =
        acc ++ (titles.enumFrom ti0).filterMap (fun tt =>
          if mkId sec gi tt.1 ∈ keepIds then
            some (annotEntry (dget decisions (mkId sec gi tt.1)) tt.2)
          else none) := by
  intro titles
  induction titles with
  | nil => simp [keptTitlesGo]
  | cons t rest ih =>
    intro acc ti0
    by_cases h : mkId sec gi ti0 ∈ keepIds
    · simp [keptTitlesGo, h, ih, List.enumFrom_cons]
    · simp [keptTitlesGo, h, ih, List.enumFrom_cons]

theorem keptTitlesLoop_eq (sec : String) (gi : Nat) (keepIds : List String)
    (decisions : PyDict Decision) (titles : List Entry) :
    keptTitlesLoop sec gi keepIds decisions titles =
      keptTitlesSpec sec gi keepIds decisions titles := by
  unfold keptTitlesLoop keptTitlesSpec
  rw [keptTitlesGo_eq]
  simp [List.enum]

theorem sectionGo_eq (sec : String) (keepIds : List String)
    (decisions : PyDict Decision) (withCount : Bool) :
    ∀ (groups : List Group) (acc : List Group) (gi0 : Nat),
      sectionGo sec keepIds decisions withCount groups acc gi0 =
        acc ++ (groups.enumFrom gi0).filterMap (fun gg =>
          let kept := keptTitlesSpec sec gg.1 keepIds decisions gg.2.titles
          if kept.isEmpty then none
          else some
            { gg.2 with
                titles := kept
                count := if withCount then some (kept.length : Int) else gg.2.count }) := by
  intro groups
  induction groups with
  | nil => simp [sectionGo]
  | cons g rest ih =>
    intro acc gi0
    by_cases h : (keptTitlesSpec sec gi0 keepIds decisions g.titles).isEmpty
    · have h2 : keptTitlesSpec sec gi0 keepIds decisions g.titles = [] := by
        simpa [List.isEmpty_iff] using h
      simp [sectionGo, keptTitlesLoop_eq, h, ih, List.enumFrom_cons, List.filterMap_cons, h2]
    · have h2 : ¬ keptTitlesSpec sec gi0 keepIds decisions g.titles = [] := by
        simpa [List.isEmpty_iff] using h
      simp [sectionGo, keptTitlesLoop_eq, h, ih, List.enumFrom_cons, List.filterMap_cons, h2]

theorem sectionLoop_eq (sec : String) (keepIds : List String)
    (decisions : PyDict Decision) (withCount : Bool) (groups : List Group) :
    sectionLoop sec keepIds decisions withCount groups =
      sectionSpec sec keepIds decisions withCount groups := by
  unfold sectionLoop sectionSpec
  rw [sectionGo_eq]
  simp [List.enum]

/-! ## Lemmas: the merger's kept-id set -/
theorem mem_pyInsert {s : List String} {x y : String} :
    y ∈ pyInsert s x ↔ y ∈ s ∨ y = x := by
  unfold pyInsert
  split
  · next h =>
    constructor
    · exact Or.inl
    · rintro (hy | rfl)
      · exact hy
      · exact h
  · simp

theorem mem_keepIdsGo (minScore : Int) (decisions : PyDict Decision) :
    ∀ (items : List Item) (acc : List String) (x : String),
      x ∈ keepIdsGo minScore decisions items acc ↔
        x ∈ acc ∨ ((∃ it ∈ items, it.id = x) ∧ keepCond minScore decisions x = true) := by
  intro items
  induction items with
  | nil => simp [keepIdsGo]
  | cons it rest ih =>
    intro acc x
    rw [keepIdsGo, ih]
    by_cases h : keepCond minScore decisions it.id
    · rw [if_pos h, mem_pyInsert]
      constructor
      · rintro ((hx | rfl) | ⟨⟨it', hit', rfl⟩, hc⟩)
        · exact Or.inl hx
        · exact Or.inr ⟨⟨it, by simp, rfl⟩, h⟩
        · exact Or.inr ⟨⟨it', by simp [hit'], rfl⟩, hc⟩
      · rintro (hx | ⟨⟨it', hit', rfl⟩, hc⟩)
        · exact Or.inl (Or.inl hx)
        · rcases List.mem_cons.mp hit' with rfl | hit'
          · exact Or.inl (Or.inr rfl)
          · exact Or.inr ⟨⟨it', hit', rfl⟩, hc⟩
    · rw [if_neg h]
      constructor
      · rintro (hx | ⟨⟨it', hit', rfl⟩, hc⟩)
        · exact Or.inl hx
        · exact Or.inr ⟨⟨it', by simp [hit'], rfl⟩, hc⟩
      · rintro (hx | ⟨⟨it', hit', rfl⟩, hc⟩)
        · exact Or.inl hx
        · rcases List.mem_cons.mp hit' with rfl | hit'
          · exact absurd hc h
          · exact Or.inr ⟨⟨it', hit', rfl⟩, hc⟩

/-- Membership in `keep_ids`: a candidate id is kept iff it belongs to some
collected item and passes the keep test (no decision ⇒ kept by default). -/
theorem mem_computeKeepIds {minScore : Int} {items : List Item}
    {decisions : PyDict Decision} {x : String} :
    x ∈ computeKeepIds minScore items decisions ↔
      (∃ it ∈ items, it.id = x) ∧ keepCond minScore decisions x = true := by
  unfold computeKeepIds
  rw [mem_keepIdsGo]
  simp

/-! ## Lemmas: batch partitioning -/
theorem dupdate_nil {α : Type} (m : PyDict α) : dupdate m [] = m := rfl

theorem chunksFuel_congr {α : Type} (b : Nat) :
    ∀ (fuel fuel' : Nat) (l : List α), l.length ≤ fuel → l.length ≤ fuel' →
      chunksFuel b fuel l = chunksFuel b fuel' l := by
  intro fuel
  induction fuel with
  | zero =>
    intro fuel' l h h'
    cases l with
    | nil => cases fuel' <;> rfl
    | cons x rest => simp at h
  | succ fuel ih =>
    intro fuel' l h h'
    cases l with
    | nil => cases fuel' <;> rfl
    | cons x rest =>
      cases fuel' with
      | zero => simp at h'
      | succ fuel' =>
        rw [chunksFuel, chunksFuel]
        have hd : (List.drop (b + 1) (x :: rest)).length ≤ fuel := by
          simp only [List.length_drop, List.length_cons]
          simp only [List.length_cons] at h
          omega
        have hd' : (List.drop (b + 1) (x :: rest)).length ≤ fuel' := by
          simp only [List.length_drop, List.length_cons]
          simp only [List.length_cons] at h'
          omega
        rw [ih fuel' _ hd hd']

theorem chunksAux_nil {α : Type} (b : Nat) : chunksAux b ([] : List α) = [] := rfl

theorem chunksAux_cons {α : Type} (b : Nat) (x : α) (rest : List α) :
    chunksAux b (x :: rest) =
      (x :: rest).take (b + 1) :: chunksAux b ((x :: rest).drop (b + 1)) := by
  unfold chunksAux
  rw [List.length_cons, chunksFuel]
  congr 1
  refine chunksFuel_congr b _ _ _ ?_ le_rfl
  simp only [List.length_drop, List.length_cons]
  omega

theorem judgeChunksFuel_congr (judgeOne : List Item → Except PyExc (PyDict Decision))
    (b : Nat) :
    ∀ (fuel fuel' : Nat) (l : List Item) (acc : PyDict Decision) (calls : List (List Item)),
      l.length ≤ fuel → l.length ≤ fuel' →
      judgeChunksFuel judgeOne b fuel l acc calls =
        judgeChunksFuel judgeOne b fuel' l acc calls := by
  intro fuel
  induction fuel with
  | zero =>
    intro fuel' l acc calls h h'
    cases l with
    | nil => cases fuel' <;> rfl
    | cons x rest => simp at h
  | succ fuel ih =>
    intro fuel' l acc calls h h'
    cases l with
    | nil => cases fuel' <;> rfl
    | cons x rest =>
      cases fuel' with
      | zero => simp at h'
      | succ fuel' =>
        rw [judgeChunksFuel, judgeChunksFuel]
        have hd : (List.drop (b + 1) (x :: rest)).length ≤ fuel := by
          simp only [List.length_drop, List.length_cons]
          simp only [List.length_cons] at h
          omega
        have hd' : (List.drop (b + 1) (x :: rest)).length ≤ fuel' := by
          simp only [List.length_drop, List.length_cons]
          simp only [List.length_cons] at h'
          omega
        cases hjo : judgeOne ((x :: rest).take (b + 1)) with
        | error e => rfl
        | ok cd => exact ih fuel' _ _ _ hd hd'

theorem judgeChunksTr_nil (judgeOne : List Item → Except PyExc (PyDict Decision))
    (b : Nat) (acc : PyDict Decision) (calls : List (List Item)) :
    judgeChunksTr judgeOne b [] acc calls = (.ok acc, calls) := rfl

theorem judgeChunksTr_cons (judgeOne : List Item → Except PyExc (PyDict Decision))
    (b : Nat) (x : Item) (rest : List Item) (acc : PyDict Decision)
    (calls : List (List Item)) :
    judgeChunksTr judgeOne b (x :: rest) acc calls =
      match judgeOne ((x :: rest).take (b + 1)) with
      | .error e => (.error e, calls ++ [(x :: rest).take (b + 1)])
      | .ok cd =>
        judgeChunksTr judgeOne b ((x :: rest).drop (b + 1))
          (if cd.isEmpty then acc else dupdate acc cd)
          (calls ++ [(x :: rest).take (b + 1)]) := by
  unfold judgeChunksTr
  rw [List.length_cons, judgeChunksFuel]
  cases hjo : judgeOne ((x :: rest).take (b + 1)) with
  | error e => rfl
  | ok cd =>
    refine judgeChunksFuel_congr judgeOne b _ _ _ _ _ ?_ le_rfl
    simp only [List.length_drop, List.length_cons]
    omega

theorem chunksAux_flatten {α : Type} (b : Nat) :
    ∀ (l : List α), (chunksAux b l).flatten = l := by
  have key : ∀ (n : Nat) (l : List α), l.length ≤ n → (chunksAux b l).flatten = l := by
    intro n
    induction n with
    | zero =>
      intro l h
      cases l with
      | nil => rfl
      | cons x rest => simp at h
    | succ n ih =>
      intro l h
      cases l with
      | nil => rfl
      | cons x rest =>
        rw [chunksAux_cons, List.flatten_cons, ih _ (by simp at h ⊢; omega),
          List.take_append_drop]
  intro l
  exact key l.length l le_rfl

theorem chunksAux_mem {α : Type} (b : Nat) :
    ∀ (l : List α), ∀ c ∈ chunksAux b l, c.length ≤ b + 1 ∧ c ≠ [] := by
  have key : ∀ (n : Nat) (l : List α), l.length ≤ n →
      ∀ c ∈ chunksAux b l, c.length ≤ b + 1 ∧ c ≠ [] := by
    intro n
    induction n with
    | zero =>
      intro l h c hc
      cases l with
      | nil => rw [chunksAux_nil] at hc; simp at hc
      | cons x rest => simp at h
    | succ n ih =>
      intro l h c hc
      cases l with
      | nil => rw [chunksAux_nil] at hc; simp at hc
      | cons x rest =>
        rw [chunksAux_cons] at hc
        rcases List.mem_cons.mp hc with rfl | hc
        · constructor
          · simp
          · simp
        · exact ih _ (by simp at h ⊢; omega) c hc
  intro l
  exact key l.length l le_rfl

theorem chunksAux_length {α : Type} (b : Nat) :
    ∀ (l : List α), (chunksAux b l).length = (l.length + b) / (b + 1) := by
  have key : ∀ (n : Nat) (l : List α), l.length ≤ n →
      (chunksAux b l).length = (l.length + b) / (b + 1) := by
    intro n
    induction n with
    | zero =>
      intro l h
      cases l with
      | nil =>
        rw [chunksAux_nil]
        simp only [List.length_nil, Nat.zero_add]
        rw [Nat.div_eq_of_lt (show b < b + 1 by omega)]
      | cons x rest => simp at h
    | succ n ih =>
      intro l h
      cases l with
      | nil =>
        rw [chunksAux_nil]
        simp only [List.length_nil, Nat.zero_add]
        rw [Nat.div_eq_of_lt (show b < b + 1 by omega)]
      | cons x rest =>
        rw [chunksAux_cons]
        have hd : (List.drop (b + 1) (x :: rest)).length = rest.length - b := by
          rw [List.length_drop]
          simp only [List.length_cons]
          omega
        simp only [List.length_cons] at h ⊢
        rw [ih _ (by rw [hd]; omega), hd]
        have h1 : rest.length + 1 + b = rest.length + (b + 1) := by omega
        rw [h1, Nat.add_div_right _ (Nat.succ_pos b)]
        rcases le_or_lt b rest.length with hge | hlt
        · have h3 : rest.length - b + b = rest.length := by omega
          rw [h3]
        · have h3 : rest.length - b = 0 := by omega
          rw [h3, Nat.zero_add, Nat.div_eq_of_lt (show b < b + 1 by omega),
            Nat.div_eq_of_lt (show rest.length < b + 1 by omega)]
  intro l
  exact key l.length l le_rfl

/-- The batch loop, when every chunk call succeeds: the trace is exactly the
chunk list and the result folds `dict.update` over the per-chunk maps. -/
theorem judgeChunksTr_ok (judgeOne : List Item → Except PyExc (PyDict Decision))
    (b : Nat) (res : List Item → PyDict Decision) :
    ∀ (l : List Item) (acc : PyDict Decision) (calls : List (List Item)),
      (∀ c ∈ chunksAux b l, judgeOne c = .ok (res c)) →
      judgeChunksTr judgeOne b l acc calls =
        (.ok ((chunksAux b l).foldl (fun m c => dupdate m (res c)) acc),
          calls ++ chunksAux b l) := by
  have key : ∀ (n : Nat) (l : List Item), l.length ≤ n →
      ∀ (acc : PyDict Decision) (calls : List (List Item)),
        (∀ c ∈ chunksAux b l, judgeOne c = .ok (res c)) →
        judgeChunksTr judgeOne b l acc calls =
          (.ok ((chunksAux b l).foldl (fun m c => dupdate m (res c)) acc),
            calls ++ chunksAux b l) := by
    intro n
    induction n with
    | zero =>
      intro l h acc calls hres
      cases l with
      | nil =>
        rw [chunksAux_nil, judgeChunksTr_nil]
        simp
      | cons x rest => simp at h
    | succ n ih =>
      intro l h acc calls hres
      cases l with
      | nil =>
        rw [chunksAux_nil, judgeChunksTr_nil]
        simp
      | cons x rest =>
        rw [chunksAux_cons] at hres ⊢
        rw [judgeChunksTr_cons]
        rw [hres _ (List.mem_cons_self _ _)]
        have hd : (List.drop (b + 1) (x :: rest)).length ≤ n := by
          simp only [List.length_drop, List.length_cons]
          simp only [List.length_cons] at h
          omega
        show judgeChunksTr judgeOne b (List.drop (b + 1) (x :: rest)) _ _ = _
        rw [ih _ hd _ _ (fun c hc => hres c (List.mem_cons_of_mem _ hc))]
        simp only [List.foldl_cons, List.append_assoc, List.singleton_append]
        by_cases hcd : (res (List.take (b + 1) (x :: rest))).isEmpty
        · have h0 : res (List.take (b + 1) (x :: rest)) = [] := by
            simpa [List.isEmpty_iff] using hcd
          rw [if_pos hcd, h0, dupdate_nil]
        · rw [if_neg hcd]
  intro l acc calls hres
  exact key l.length l le_rfl acc calls hres

/-- C8 bundle: the chunking facts and the loop result, at the
`_judge_in_batches` entry point. -/
theorem judgeInBatchesTr_ok (judgeOne : List Item → Except PyExc (PyDict Decision))
    (batchSize : Int) (items : List Item) (res : List Item → PyDict Decision)
    (hne : items ≠ []) (hbs : 0 < batchSize)
    (hres : ∀ c ∈ chunksOf batchSize.toNat items, judgeOne c = .ok (res c)) :
    judgeInBatchesTr judgeOne batchSize items =
      (.ok ((chunksOf batchSize.toNat items).foldl (fun m c => dupdate m (res c)) []),
        chunksOf batchSize.toNat items) := by
  have hbs1 : 1 ≤ batchSize.toNat := by omega
  unfold judgeInBatchesTr
  rw [if_neg (by simpa [List.isEmpty_iff] using hne)]
  have hbsp : (0 : Int) < batchSize := hbs
  simp only [if_pos hbsp]
  have hchunks : chunksOf batchSize.toNat items = chunksAux (batchSize.toNat - 1) items := by
    unfold chunksOf
    rw [if_neg (by omega)]
  rw [hchunks] at hres
  rw [judgeChunksTr_ok judgeOne _ res items [] [] hres, hchunks]
  simp

/-! ## Lemmas: `filter_before_send` path analysis -/
/-- The success path of `filter_before_send`, written out: collect, cap,
judge, merge, rewrite. -/
theorem filterBeforeSend_ok (cfg : GateConfig)
    (judgeOne : List Item → Except PyExc (PyDict Decision))
    (rd : ReportData) (rss rssNew : Option (List Group)) (ds : PyDict Decision)
    (hen : cfg.enabled = true)
    (hkey : pyStrip cfg.apiKey ≠ "")
    (hne : collectCandidates rd rss rssNew ≠ [])
    (hok : (judgeInBatchesTr judgeOne cfg.batchSize
        (evalItemsOf cfg.maxItems (collectCandidates rd rss rssNew))).1 = .ok ds) :
    filterBeforeSend cfg judgeOne rd rss rssNew =
      (let items := collectCandidates rd rss rssNew
       let keepIds := computeKeepIds cfg.minScore items ds
       let out := applyKeptIds rd rss rssNew keepIds ds
       (out.1, out.2.1, out.2.2,
        { total_items := (items.length : Int)
          evaluated_items := ((evalItemsOf cfg.maxItems items).length : Int)
          kept_items := (keepIds.length : Int)
          dropped_items := max 0 ((items.length : Int) - (keepIds.length : Int)) })) := by
  unfold filterBeforeSend
  rw [hen]
  simp only [Bool.not_true, Bool.false_eq_true, if_false, if_neg hkey]
  rw [if_neg (by simpa [List.isEmpty_iff] using hne)]
  rw [hok]

theorem ids_itemsOfGroups (sec : String) (useWord : Bool) (gs : List Group) :
    (itemsOfGroups sec useWord gs).map Item.id = sectionIds sec gs := by
  unfold itemsOfGroups sectionIds
  rw [List.map_flatMap]
  congr 1
  funext gg
  rw [List.map_filterMap]
  congr 1
  funext tt
  by_cases h : pyStrip tt.2.title = ""
  · simp [h]
  · simp [h]

/-- Every collected id records a position holding a non-blank title. -/
theorem mem_sectionIds {sec : String} {gs : List Group} {x : String} :
    x ∈ sectionIds sec gs ↔
      ∃ gi g ti t, gs[gi]? = some g ∧ g.titles[ti]? = some t ∧
        pyStrip t.title ≠ "" ∧ x = mkId sec gi ti := by
  unfold sectionIds
  rw [List.mem_flatMap]
  constructor
  · rintro ⟨gg, hgg, hx⟩
    rw [List.mem_filterMap] at hx
    obtain ⟨tt, htt, hsome⟩ := hx
    by_cases h : pyStrip tt.2.title = ""
    · rw [if_pos h] at hsome
      exact absurd hsome (by simp)
    · rw [if_neg h] at hsome
      obtain ⟨gi, g⟩ := gg
      obtain ⟨ti, t⟩ := tt
      refine ⟨gi, g, ti, t, ?_, ?_, h, by simpa using hsome.symm⟩
      · exact List.mk_mem_enum_iff_getElem?.mp hgg
      · exact List.mk_mem_enum_iff_getElem?.mp htt
  · rintro ⟨gi, g, ti, t, hg, ht, hbl, rfl⟩
    refine ⟨(gi, g), List.mk_mem_enum_iff_getElem?.mpr hg, ?_⟩
    rw [List.mem_filterMap]
    exact ⟨(ti, t), List.mk_mem_enum_iff_getElem?.mpr ht, by simp [hbl]⟩

/-- A `filterMap` that keeps a transformed element or drops it is a sublist
of the corresponding `map`. -/
theorem filterMap_ite_sublist {α β : Type} (p : α → Prop) [DecidablePred p]
    (f : α → β) (l : List α) :
    (l.filterMap (fun x => if p x then none else some (f x))).Sublist (l.map f) := by
  induction l with
  | nil => simp
  | cons x rest ih =>
    rw [List.filterMap_cons, List.map_cons]
    by_cases h : p x
    · rw [if_pos h]
      exact ih.cons _
    · rw [if_neg h]
      exact ih.cons₂ _

theorem nodup_sectionIds (sec : String) (gs : List Group)
    (hs : ∀ c ∈ sec.data, c ≠ ':') : (sectionIds sec gs).Nodup := by
  unfold sectionIds
  rw [List.nodup_flatMap]
  constructor
  · intro gg _
    have hsub := filterMap_ite_sublist (fun tt : Nat × Entry => pyStrip tt.2.title = "")
      (fun tt => mkId sec gg.1 tt.1) gg.2.titles.enum
    refine hsub.nodup ?_
    have hmm : (gg.2.titles.enum).map (fun tt => mkId sec gg.1 tt.1) =
        ((gg.2.titles.enum).map Prod.fst).map (mkId sec gg.1) := by
      rw [List.map_map]
      rfl
    rw [hmm, List.enum_map_fst]
    refine (List.nodup_range _).map ?_
    intro a b hab
    exact (mkId_injective hs hs hab).2.2
  · have hpw : gs.enum.Pairwise (fun a b => a.1 ≠ b.1) := by
      have h1 : (gs.enum.map Prod.fst).Nodup := by
        rw [List.enum_map_fst]
        exact List.nodup_range _
      exact List.pairwise_map.mp h1
    refine hpw.imp ?_
    intro a b hab
    intro x hxa hxb
    rw [List.mem_filterMap] at hxa hxb
    obtain ⟨tt, _, hsa⟩ := hxa
    obtain ⟨tt', _, hsb⟩ := hxb
    by_cases h : pyStrip tt.2.title = ""
    · rw [if_pos h] at hsa
      exact absurd hsa (by simp)
    by_cases h' : pyStrip tt'.2.title = ""
    · rw [if_pos h'] at hsb
      exact absurd hsb (by simp)
    rw [if_neg h] at hsa
    rw [if_neg h'] at hsb
    have heq := (Option.some.inj hsa).trans (Option.some.inj hsb).symm
    exact hab (mkId_injective hs hs heq).2.1

theorem collect_ids_eq (rd : ReportData) (rss rssNew : Option (List Group)) :
    (collectCandidates rd rss rssNew).map Item.id =
      sectionIds ("hot_stats") rd.stats ++ sectionIds ("hot_new") rd.newTitles
        ++ sectionIds ("rss_stats") (rss.getD []) ++ sectionIds ("rss_new") (rssNew.getD []) := by
  unfold collectCandidates
  rw [List.map_append, List.map_append, List.map_append,
    ids_itemsOfGroups, ids_itemsOfGroups, ids_itemsOfGroups, ids_itemsOfGroups]

theorem sectionIds_disjoint {sec sec' : String} (gs gs' : List Group)
    (hs : ∀ c ∈ sec.data, c ≠ ':') (hs' : ∀ c ∈ sec'.data, c ≠ ':')
    (hne : sec ≠ sec') : (sectionIds sec gs).Disjoint (sectionIds sec' gs') := by
  intro x hx hx'
  obtain ⟨_, _, _, _, _, _, _, rfl⟩ := mem_sectionIds.mp hx
  obtain ⟨_, _, _, _, _, _, _, heq⟩ := mem_sectionIds.mp hx'
  exact hne (mkId_injective hs hs' heq).1

theorem nodup_collect_ids (rd : ReportData) (rss rssNew : Option (List Group)) :
    ((collectCandidates rd rss rssNew).map Item.id).Nodup := by
  rw [collect_ids_eq]
  have c1 : ∀ c ∈ ("hot_stats" : String).data, c ≠ ':' := by decide
  have c2 : ∀ c ∈ ("hot_new" : String).data, c ≠ ':' := by decide
  have c3 : ∀ c ∈ ("rss_stats" : String).data, c ≠ ':' := by decide
  have c4 : ∀ c ∈ ("rss_new" : String).data, c ≠ ':' := by decide
  rw [List.nodup_append, List.nodup_append, List.nodup_append]
  refine ⟨⟨⟨nodup_sectionIds _ _ c1, nodup_sectionIds _ _ c2,
    sectionIds_disjoint _ _ c1 c2 (by decide)⟩,
    nodup_sectionIds _ _ c3, ?_⟩, nodup_sectionIds _ _ c4, ?_⟩
  · intro x hx
    rcases List.mem_append.mp hx with hx | hx
    · exact sectionIds_disjoint _ _ c1 c3 (by decide) hx
    · exact sectionIds_disjoint _ _ c2 c3 (by decide) hx
  · intro x hx
    rcases List.mem_append.mp hx with hx | hx
    · rcases List.mem_append.mp hx with hx | hx
      · exact sectionIds_disjoint _ _ c1 c4 (by decide) hx
      · exact sectionIds_disjoint _ _ c2 c4 (by decide) hx
    · exact sectionIds_disjoint _ _ c3 c4 (by decide) hx

/-! ## Claim theorems -/
theorem exc_format_ne_empty (e : PyExc) : e.name ++ ": " ++ e.msg ≠ "" := by
  intro h
  have hd := congrArg String.data h
  rw [String.data_append, String.data_append] at hd
  have hcolon : (": " : String).data = [':', ' '] := rfl
  rw [hcolon] at hd
  simp at hd

theorem evalItemsOf_nil (maxItems : Int) : evalItemsOf maxItems [] = [] := by
  unfold evalItemsOf
  split <;> simp

/-- C1: fail-open. With the gate enabled, if no API key is configured or the
judgment pass raises, `filter_before_send` returns its three collection
arguments exactly as passed (decisions from earlier successful batches
discarded with the rest of the pass) and a non-empty `stats.error`; no
partially filtered outcome exists. -/
theorem c1_fail_open (cfg : GateConfig)
    (judgeOne : List Item → Except PyExc (PyDict Decision))
    (rd : ReportData) (rss rssNew : Option (List Group))
    (hen : cfg.enabled = true)
    (hfail : pyStrip cfg.apiKey = "" ∨
      ∃ e, (judgeInBatchesTr judgeOne cfg.batchSize
          (evalItemsOf cfg.maxItems (collectCandidates rd rss rssNew))).1 = .error e) :
    (filterBeforeSend cfg judgeOne rd rss rssNew).1 = rd ∧
    (filterBeforeSend cfg judgeOne rd rss rssNew).2.1 = rss ∧
    (filterBeforeSend cfg judgeOne rd rss rssNew).2.2.1 = rssNew ∧
    (filterBeforeSend cfg judgeOne rd rss rssNew).2.2.2.error ≠ "" := by
  unfold filterBeforeSend
  rw [hen]
  simp only [Bool.not_true, Bool.false_eq_true, if_false]
  by_cases hkey : pyStrip cfg.apiKey = ""
  · rw [if_pos hkey]
    refine ⟨rfl, rfl, rfl, ?_⟩
    intro h
    have hd : ("未配置 AI_API_KEY，跳过质量复筛" : String) = "" := h
    exact absurd (congrArg String.length hd) (by decide)
  · rw [if_neg hkey]
    rcases hfail with h | ⟨e, he⟩
    · exact absurd h hkey
    · by_cases hni : (collectCandidates rd rss rssNew).isEmpty
      · exfalso
        have hnil : collectCandidates rd rss rssNew = [] := by
          simpa [List.isEmpty_iff] using hni
        rw [hnil, evalItemsOf_nil] at he
        rw [judgeInBatchesTr] at he
        simp at he
      · rw [if_neg hni, he]
        exact ⟨rfl, rfl, rfl, exc_format_ne_empty e⟩

theorem c1_fail_open_witness :
    ((⟨true, " ", 60, 30, 40⟩ : GateConfig).enabled = true ∧
      pyStrip ((⟨true, " ", 60, 30, 40⟩ : GateConfig).apiKey) = "") ∧
    ((filterBeforeSend ⟨true, " ", 60, 30, 40⟩
        (fun _ => Except.error ⟨"ValueError", "boom"⟩) {} none none).1 = {} ∧
      (filterBeforeSend ⟨true, " ", 60, 30, 40⟩
        (fun _ => Except.error ⟨"ValueError", "boom"⟩) {} none none).2.1 = none ∧
      (filterBeforeSend ⟨true, " ", 60, 30, 40⟩
        (fun _ => Except.error ⟨"ValueError", "boom"⟩) {} none none).2.2.1 = none ∧
      (filterBeforeSend ⟨true, " ", 60, 30, 40⟩
        (fun _ => Except.error ⟨"ValueError", "boom"⟩) {} none none).2.2.2.error ≠ "") :=
  ⟨⟨rfl, by decide⟩,
    c1_fail_open ⟨true, " ", 60, 30, 40⟩ (fun _ => Except.error ⟨"ValueError", "boom"⟩)
      {} none none rfl (Or.inl (by decide))⟩

/-- C2: merger keep law. For a candidate id with a decision, it is kept iff
`keep` is true and `score >= min_score`; for a candidate id the decision map
omits, it is always kept. -/
theorem c2_merger_keep_law (minScore : Int) (items : List Item)
    (decisions : PyDict Decision) (x : String)
    (hx : x ∈ items.map Item.id) :
    (∀ d, dget decisions x = some d →
      (x ∈ computeKeepIds minScore items decisions ↔
        (d.keep = true ∧ minScore ≤ d.score))) ∧
    (dget decisions x = none → x ∈ computeKeepIds minScore items decisions) := by
  rw [List.mem_map] at hx
  obtain ⟨it, hit, hid⟩ := hx
  constructor
  · intro d hd
    rw [mem_computeKeepIds]
    unfold keepCond
    rw [hd]
    simp only [Bool.and_eq_true, decide_eq_true_eq]
    constructor
    · rintro ⟨_, hk⟩
      exact hk
    · intro hk
      exact ⟨⟨it, hit, hid⟩, hk⟩
  · intro hd
    rw [mem_computeKeepIds]
    unfold keepCond
    rw [hd]
    exact ⟨⟨it, hit, hid⟩, rfl⟩

theorem c2_merger_keep_law_witness :
    (("hot_stats:0:0" : String) ∈
      ([⟨"hot_stats:0:0", "t", "", "", "hot_stats", ""⟩] : List Item).map Item.id) ∧
    ((∀ d, dget [("hot_stats:0:0", (⟨true, 80, "", ""⟩ : Decision))] ("hot_stats:0:0") = some d →
        (("hot_stats:0:0" : String) ∈ computeKeepIds 60
            [⟨"hot_stats:0:0", "t", "", "", "hot_stats", ""⟩]
            [("hot_stats:0:0", ⟨true, 80, "", ""⟩)] ↔
          (d.keep = true ∧ (60 : Int) ≤ d.score))) ∧
      (dget [("hot_stats:0:0", (⟨true, 80, "", ""⟩ : Decision))] ("hot_stats:0:0") = none →
        ("hot_stats:0:0" : String) ∈ computeKeepIds 60
          [⟨"hot_stats:0:0", "t", "", "", "hot_stats", ""⟩]
          [("hot_stats:0:0", ⟨true, 80, "", ""⟩)])) :=
  ⟨by decide,
    c2_merger_keep_law 60 [⟨"hot_stats:0:0", "t", "", "", "hot_stats", ""⟩]
      [("hot_stats:0:0", ⟨true, 80, "", ""⟩)] ("hot_stats:0:0") (by decide)⟩

/-- C8: batch partitioning. For a non-empty evaluated list and `B > 0`,
`_judge_in_batches` partitions the list into `ceil(n/B)` contiguous chunks of
size at most `B` covering the list in order, issues exactly one service call
per chunk sequentially in list order (the call trace is the chunk list), and
on success returns the union (`dict.update` fold) of the per-chunk maps. -/
theorem c8_batch_partitioning (judgeOne : List Item → Except PyExc (PyDict Decision))
    (batchSize : Int) (items : List Item) (res : List Item → PyDict Decision)
    (hne : items ≠ []) (hbs : 0 < batchSize)
    (hres : ∀ c ∈ chunksOf batchSize.toNat items, judgeOne c = .ok (res c)) :
    (chunksOf batchSize.toNat items).flatten = items ∧
    (∀ c ∈ chunksOf batchSize.toNat items, c.length ≤ batchSize.toNat ∧ c ≠ []) ∧
    (chunksOf batchSize.toNat items).length =
      (items.length + batchSize.toNat - 1) / batchSize.toNat ∧
    judgeInBatchesTr judgeOne batchSize items =
      (.ok ((chunksOf batchSize.toNat items).foldl (fun m c => dupdate m (res c)) []),
        chunksOf batchSize.toNat items) := by
  have h1 : batchSize.toNat ≠ 0 := by omega
  have hch : chunksOf batchSize.toNat items = chunksAux (batchSize.toNat - 1) items := by
    unfold chunksOf
    rw [if_neg h1]
  refine ⟨?_, ?_, ?_, judgeInBatchesTr_ok _ _ _ _ hne hbs hres⟩
  · rw [hch]
    exact chunksAux_flatten _ _
  · rw [hch]
    intro c hc
    have hm := chunksAux_mem _ _ c hc
    exact ⟨by omega, hm.2⟩
  · rw [hch, chunksAux_length]
    have hnum : items.length + (batchSize.toNat - 1) = items.length + batchSize.toNat - 1 := by
      omega
    have hden : batchSize.toNat - 1 + 1 = batchSize.toNat := by omega
    rw [hnum, hden]

theorem c8_batch_partitioning_witness :
    (([⟨"a", "A", "", "", "hot_stats", ""⟩, ⟨"b", "B", "", "", "hot_stats", ""⟩,
        ⟨"c", "C", "", "", "hot_stats", ""⟩] : List Item) ≠ [] ∧ (0 : Int) < 2 ∧
      ∀ c ∈ chunksOf (2 : Int).toNat
          ([⟨"a", "A", "", "", "hot_stats", ""⟩, ⟨"b", "B", "", "", "hot_stats", ""⟩,
            ⟨"c", "C", "", "", "hot_stats", ""⟩] : List Item),
        (fun (_ : List Item) => (Except.ok [] : Except PyExc (PyDict Decision))) c =
          .ok ((fun (_ : List Item) => ([] : PyDict Decision)) c)) ∧
    ((chunksOf (2 : Int).toNat
        ([⟨"a", "A", "", "", "hot_stats", ""⟩, ⟨"b", "B", "", "", "hot_stats", ""⟩,
          ⟨"c", "C", "", "", "hot_stats", ""⟩] : List Item)).flatten =
        [⟨"a", "A", "", "", "hot_stats", ""⟩, ⟨"b", "B", "", "", "hot_stats", ""⟩,
          ⟨"c", "C", "", "", "hot_stats", ""⟩] ∧
      (∀ c ∈ chunksOf (2 : Int).toNat
          ([⟨"a", "A", "", "", "hot_stats", ""⟩, ⟨"b", "B", "", "", "hot_stats", ""⟩,
            ⟨"c", "C", "", "", "hot_stats", ""⟩] : List Item),
        c.length ≤ (2 : Int).toNat ∧ c ≠ []) ∧
      (chunksOf (2 : Int).toNat
        ([⟨"a", "A", "", "", "hot_stats", ""⟩, ⟨"b", "B", "", "", "hot_stats", ""⟩,
          ⟨"c", "C", "", "", "hot_stats", ""⟩] : List Item)).length =
        (([⟨"a", "A", "", "", "hot_stats", ""⟩, ⟨"b", "B", "", "", "hot_stats", ""⟩,
          ⟨"c", "C", "", "", "hot_stats", ""⟩] : List Item).length + (2 : Int).toNat - 1) /
          (2 : Int).toNat ∧
      judgeInBatchesTr (fun _ => (Except.ok [] : Except PyExc (PyDict Decision))) 2
          [⟨"a", "A", "", "", "hot_stats", ""⟩, ⟨"b", "B", "", "", "hot_stats", ""⟩,
            ⟨"c", "C", "", "", "hot_stats", ""⟩] =
        (.ok ((chunksOf (2 : Int).toNat
            ([⟨"a", "A", "", "", "hot_stats", ""⟩, ⟨"b", "B", "", "", "hot_stats", ""⟩,
              ⟨"c", "C", "", "", "hot_stats", ""⟩] : List Item)).foldl
            (fun m _ => dupdate m []) []),
          chunksOf (2 : Int).toNat
            ([⟨"a", "A", "", "", "hot_stats", ""⟩, ⟨"b", "B", "", "", "hot_stats", ""⟩,
              ⟨"c", "C", "", "", "hot_stats", ""⟩] : List Item))) :=
  ⟨⟨by decide, by decide, fun c _ => rfl⟩,
    c8_batch_partitioning (fun _ => .ok []) 2
      [⟨"a", "A", "", "", "hot_stats", ""⟩, ⟨"b", "B", "", "", "hot_stats", ""⟩,
        ⟨"c", "C", "", "", "hot_stats", ""⟩] (fun _ => []) (by decide) (by decide)
      (fun c _ => rfl)⟩

theorem mem_pyRStrip {s : String} {c : Char} (h : c ∈ (pyRStrip s).data) :
    c ∈ s.data := by
  unfold pyRStrip at h
  rw [List.mem_reverse] at h
  have h1 := (List.dropWhile_sublist _).subset h
  rw [List.mem_reverse] at h1
  exact h1

theorem pyRStrip_length (s : String) : (pyRStrip s).length ≤ s.length := by
  show ((s.data.reverse.dropWhile pyIsSpace).reverse).length ≤ s.data.length
  rw [List.length_reverse]
  calc (s.data.reverse.dropWhile pyIsSpace).length
      ≤ s.data.reverse.length := (List.dropWhile_sublist _).length_le
    _ = s.data.length := List.length_reverse _

theorem mem_stripListWith {p : Char → Bool} {l : List Char} {c : Char}
    (h : c ∈ stripListWith p l) : c ∈ l := by
  unfold stripListWith at h
  rw [List.mem_reverse] at h
  have h1 := (List.dropWhile_sublist _).subset h
  rw [List.mem_reverse] at h1
  exact (List.dropWhile_sublist _).subset h1

theorem stripListWith_length (p : Char → Bool) (l : List Char) :
    (stripListWith p l).length ≤ l.length := by
  unfold stripListWith
  rw [List.length_reverse]
  calc (List.dropWhile p (l.dropWhile p).reverse).length
      ≤ (l.dropWhile p).reverse.length := (List.dropWhile_sublist _).length_le
    _ = (l.dropWhile p).length := by rw [List.length_reverse]
    _ ≤ l.length := (List.dropWhile_sublist _).length_le

/-- The newline-collapsing map of the brief normalization never outputs a
newline or carriage return. -/
theorem collapse_char_ok (x : Char) :
    (if x = '\n' then ' ' else if x = '\r' then ' ' else x) ≠ '\n' ∧
    (if x = '\n' then ' ' else if x = '\r' then ' ' else x) ≠ '\r' := by
  by_cases h1 : x = '\n'
  · simp [h1]
  · by_cases h2 : x = '\r'
    · simp [h1, h2]
    · simp [h1, h2]

theorem normalizeBrief_clean (b : String) :
    ('\n' ∉ (normalizeBrief b).data ∧ '\r' ∉ (normalizeBrief b).data) ∧
      (normalizeBrief b).length ≤ 80 := by
  unfold normalizeBrief
  by_cases h0 : pyStrip b ≠ ""
  · rw [if_pos h0]
    have hmap : ∀ c ∈ (pyStrip
        ⟨((pyStrip b).data.map
          (fun c => if c = '\n' then ' ' else if c = '\r' then ' ' else c))⟩).data,
        c ≠ '\n' ∧ c ≠ '\r' := by
      intro c hc
      have hc2 := mem_stripListWith hc
      rw [List.mem_map] at hc2
      obtain ⟨x, _, rfl⟩ := hc2
      exact collapse_char_ok x
    by_cases hlen : 80 < (pyStrip
        ⟨((pyStrip b).data.map
          (fun c => if c = '\n' then ' ' else if c = '\r' then ' ' else c))⟩).length
    · rw [if_pos hlen]
      refine ⟨⟨?_, ?_⟩, ?_⟩
      · intro hmem
        have h1 := mem_pyRStrip hmem
        have h2 := List.take_subset _ _ h1
        exact (hmap _ h2).1 rfl
      · intro hmem
        have h1 := mem_pyRStrip hmem
        have h2 := List.take_subset _ _ h1
        exact (hmap _ h2).2 rfl
      · calc (pyRStrip _).length ≤ _ := pyRStrip_length _
          _ ≤ 80 := List.length_take_le _ _
    · rw [if_neg hlen]
      refine ⟨⟨?_, ?_⟩, by omega⟩
      · intro hmem
        exact (hmap _ hmem).1 rfl
      · intro hmem
        exact (hmap _ hmem).2 rfl
  · rw [if_neg h0]
    push_neg at h0
    rw [h0]
    exact ⟨⟨by simp, by simp⟩, by simp⟩

theorem mem_dinsert {α : Type} {m : PyDict α} {k : String} {v : α}
    {p : String × α} (h : p ∈ dinsert m k v) : p ∈ m ∨ p = (k, v) := by
  unfold dinsert at h
  split at h
  · rw [List.mem_map] at h
    obtain ⟨q, hq, hqe⟩ := h
    by_cases hk : q.1 = k
    · rw [if_pos hk] at hqe
      exact Or.inr hqe.symm
    · rw [if_neg hk] at hqe
      exact Or.inl (hqe ▸ hq)
  · rcases List.mem_append.mp h with h | h
    · exact Or.inl h
    · exact Or.inr (by simpa using h)

/-- Every binding produced by the `_judge_batch` row loop comes from the
initial dict or from the successful parse of one row. -/
theorem rowsLoop_mem :
    ∀ (rows : List Json) (acc m : PyDict Decision), rowsLoop rows acc = .ok m →
      ∀ p ∈ m, p ∈ acc ∨ ∃ row ∈ rows, parseRow row = .ok (some p) := by
  intro rows
  induction rows with
  | nil =>
    intro acc m h p hp
    rw [rowsLoop] at h
    cases h
    exact Or.inl hp
  | cons row rest ih =>
    intro acc m h p hp
    rw [rowsLoop] at h
    cases hr : parseRow row with
    | error e => rw [hr] at h; exact absurd h (by simp)
    | ok o =>
      rw [hr] at h
      cases o with
      | none =>
        rcases ih acc m h p hp with hin | ⟨row', hrow', hp'⟩
        · exact Or.inl hin
        · exact Or.inr ⟨row', by simp [hrow'], hp'⟩
      | some kv =>
        rcases ih _ m h p hp with hin | ⟨row', hrow', hp'⟩
        · rcases mem_dinsert hin with hin | rfl
          · exact Or.inl hin
          · exact Or.inr ⟨row, by simp, by simpa using hr⟩
        · exact Or.inr ⟨row', by simp [hrow'], hp'⟩

/-- If any row of the array fails to parse (e.g. a non-convertible
`score`), the whole row loop fails. -/
theorem rowsLoop_error :
    ∀ (rows : List Json) (acc : PyDict Decision),
      (∃ row ∈ rows, ∃ e, parseRow row = .error e) →
      ∃ e2, rowsLoop rows acc = .error e2 := by
  intro rows
  induction rows with
  | nil =>
    intro acc hrow
    simp at hrow
  | cons r rest ih =>
    intro acc hrow
    obtain ⟨row, hmem, e, he⟩ := hrow
    rcases List.mem_cons.mp hmem with rfl | hmem'
    · exact ⟨e, by rw [rowsLoop, he]⟩
    · cases hp : parseRow r with
      | error e2 => exact ⟨e2, by rw [rowsLoop, hp]⟩
      | ok o =>
        cases o with
        | none =>
          obtain ⟨e2, h2⟩ := ih acc ⟨row, hmem', e, he⟩
          exact ⟨e2, by rw [rowsLoop, hp]; exact h2⟩
        | some kv =>
          obtain ⟨e2, h2⟩ := ih (dinsert acc kv.1 kv.2) ⟨row, hmem', e, he⟩
          exact ⟨e2, by rw [rowsLoop, hp]; exact h2⟩

/-- A successful `_judge_batch` parse went through the array path. -/
theorem judgeBatchFromRaw_ok_arr {loads : String → Option Json} {raw : String}
    {m : PyDict Decision} (hok : judgeBatchFromRaw loads raw = .ok m) :
    ∃ ex rows, safeJsonExtract raw = some ex ∧ ex ≠ "" ∧
      loads ex = some (.arr rows) ∧ rowsLoop rows [] = .ok m := by
  unfold judgeBatchFromRaw at hok
  split at hok
  · exact absurd hok (by simp)
  · next ex heq =>
    split at hok
    · exact absurd hok (by simp)
    · next hne =>
      split at hok
      · exact absurd hok (by simp)
      · next rows heq2 => exact ⟨ex, rows, heq, hne, heq2, hok⟩
      · exact absurd hok (by simp)

/-- A successfully parsed row stores a normalized brief. -/
theorem parseRow_brief {row : Json} {p : String × Decision}
    (h : parseRow row = .ok (some p)) : ∃ b, p.2.brief = normalizeBrief b := by
  cases row with
  | obj kvs =>
    simp only [parseRow] at h
    split at h
    · exact absurd h (by simp)
    · split at h
      · exact absurd h (by simp)
      · simp only [Except.ok.injEq, Option.some.injEq] at h
        refine ⟨pyStr (jget kvs "brief" (.str "")), ?_⟩
        rw [← h]
  | null => simp [parseRow] at h
  | bool b => simp [parseRow] at h
  | num n => simp [parseRow] at h
  | str s => simp [parseRow] at h
  | arr xs => simp [parseRow] at h

/-- C7: brief annotation hygiene. Every decision stored by a successful
`_judge_batch` parse has a brief with no newline or carriage return and at
most 80 characters. -/
theorem c7_brief_hygiene (loads : String → Option Json) (raw : String)
    (m : PyDict Decision) (hok : judgeBatchFromRaw loads raw = .ok m) :
    ∀ p ∈ m, ('\n' ∉ p.2.brief.data ∧ '\r' ∉ p.2.brief.data) ∧ p.2.brief.length ≤ 80 := by
  intro p hp
  unfold judgeBatchFromRaw at hok
  split at hok
  · exact absurd hok (by simp)
  · split at hok
    · exact absurd hok (by simp)
    · split at hok
      · exact absurd hok (by simp)
      · rcases rowsLoop_mem _ [] m hok p hp with hin | ⟨row, _, hrow⟩
        · exact absurd hin (by simp)
        · obtain ⟨b, hb⟩ := parseRow_brief hrow
          rw [hb]
          exact normalizeBrief_clean b
      · exact absurd hok (by simp)

set_option maxRecDepth 100000 in
theorem c7_brief_hygiene_witness :
    judgeBatchFromRaw loadsC7 rawC7 = .ok [("x", dC7)] ∧
    (∀ p ∈ [("x", dC7)],
      ('\n' ∉ p.2.brief.data ∧ '\r' ∉ p.2.brief.data) ∧ p.2.brief.length ≤ 80) :=
  ⟨by rfl, c7_brief_hygiene loadsC7 rawC7 [("x", dC7)] (by rfl)⟩

/-- C5 counterexample: the response `[1, 2]` cannot be parsed as a JSON
array **of objects**, yet `_judge_batch` does not raise: non-object rows are
silently skipped and the batch succeeds with an empty decision map
(`json.loads("[1, 2]")` is `[1, 2]`, an array, so the only hard check —
`isinstance(data, list)` — passes). -/
theorem c5_counterexample : judgeBatchFromRaw loadsC5 ("[1, 2]") = .ok [] := by
  rfl

/-- C5 amended: tolerant extraction strips prose and code fences; a
remainder that yields no extractable JSON, fails `json.loads`, or parses to
a non-array is a hard failure for the batch. Within a parsed array,
non-object rows and rows with a missing/blank trimmed id are discarded
(silently, not errors); every other row whose `score` field converts to an
integer contributes exactly the decision keyed by its trimmed id, and every
binding of a successful batch comes from such a row. -/
theorem c5_response_parsing (loads : String → Option Json) (raw : String) :
    (safeJsonExtract raw = none →
      judgeBatchFromRaw loads raw = .error ⟨"ValueError", "模型输出未找到可解析的 JSON"⟩) ∧
    (∀ ex, safeJsonExtract raw = some ex → ex ≠ "" → loads ex = none →
      judgeBatchFromRaw loads raw = .error ⟨"JSONDecodeError", "Expecting value"⟩) ∧
    (∀ ex j, safeJsonExtract raw = some ex → ex ≠ "" → loads ex = some j →
      (∀ rows, j ≠ .arr rows) →
      judgeBatchFromRaw loads raw = .error ⟨"ValueError", "模型输出 JSON 不是数组"⟩) ∧
    (∀ row : Json, (∀ kvs, row ≠ .obj kvs) → parseRow row = .ok none) ∧
    (∀ kvs, pyStrip (pyStr (jget kvs "id" (.str ""))) = "" →
      parseRow (.obj kvs) = .ok none) ∧
    (∀ kvs score, pyStrip (pyStr (jget kvs "id" (.str ""))) ≠ "" →
      pyInt (jOr (jget kvs "score" (.num 0)) (.num 0)) = .ok score →
      parseRow (.obj kvs) =
        .ok (some (pyStrip (pyStr (jget kvs "id" (.str ""))),
          { keep := jTruthy (jget kvs "keep" (.bool false))
            score := score
            reason := pyStrip (pyStr (jget kvs "reason" (.str "")))
            brief := normalizeBrief (pyStr (jget kvs "brief" (.str ""))) }))) ∧
    (∀ ex rows m, safeJsonExtract raw = some ex → loads ex = some (.arr rows) →
      judgeBatchFromRaw loads raw = .ok m →
      ∀ p ∈ m, ∃ row ∈ rows, parseRow row = .ok (some p)) ∧
    (∀ kvs e, pyStrip (pyStr (jget kvs "id" (.str ""))) ≠ "" →
      pyInt (jOr (jget kvs "score" (.num 0)) (.num 0)) = .error e →
      parseRow (.obj kvs) = .error e) ∧
    (∀ ex rows row e, safeJsonExtract raw = some ex → loads ex = some (.arr rows) →
      row ∈ rows → parseRow row = .error e →
      ∃ e2, judgeBatchFromRaw loads raw = .error e2) := by
  refine ⟨?_, ?_, ?_, ?_, ?_, ?_, ?_, ?_, ?_⟩
  · intro hex
    unfold judgeBatchFromRaw
    rw [hex]
  · intro ex hex hne hl
    unfold judgeBatchFromRaw
    rw [hex]
    simp only [if_neg hne]
    rw [hl]
  · intro ex j hex hne hl hj
    unfold judgeBatchFromRaw
    rw [hex]
    simp only [if_neg hne]
    rw [hl]
    cases j with
    | arr rows => exact absurd rfl (hj rows)
    | null => rfl
    | bool b => rfl
    | num n => rfl
    | str s => rfl
    | obj kvs => rfl
  · intro row hrow
    cases row with
    | obj kvs => exact absurd rfl (hrow kvs)
    | null => rfl
    | bool b => rfl
    | num n => rfl
    | str s => rfl
    | arr xs => rfl
  · intro kvs hid
    simp only [parseRow]
    rw [if_pos hid]
  · intro kvs score hid hsc
    simp only [parseRow]
    rw [if_neg hid, hsc]
  · intro ex rows m hex hl hok p hp
    obtain ⟨ex', rows', hex', _, hl', hrl⟩ := judgeBatchFromRaw_ok_arr hok
    rw [hex] at hex'
    have he : ex' = ex := (Option.some.inj hex').symm
    subst he
    rw [hl] at hl'
    have hr : rows' = rows := (Json.arr.inj (Option.some.inj hl')).symm
    subst hr
    rcases rowsLoop_mem rows' [] m hrl p hp with hin | h
    · exact absurd hin (by simp)
    · exact h
  · intro kvs e hid hsc
    simp only [parseRow]
    rw [if_neg hid, hsc]
  · intro ex rows row e hex hl hmem herr
    unfold judgeBatchFromRaw
    rw [hex]
    dsimp only
    by_cases hne : ex = ""
    · rw [if_pos hne]
      exact ⟨_, rfl⟩
    · rw [if_neg hne, hl]
      exact rowsLoop_error rows [] ⟨row, hmem, e, herr⟩

set_option maxRecDepth 100000 in
theorem c5_response_parsing_witness :
    (judgeBatchFromRaw (fun _ => none) ("no json here") =
      .error ⟨"ValueError", "模型输出未找到可解析的 JSON"⟩) ∧
    (∃ e2, judgeBatchFromRaw loadsC5E rawC5E = .error e2) :=
  ⟨(c5_response_parsing (fun _ => none) ("no json here")).1 (by decide),
    (c5_response_parsing loadsC5E rawC5E).2.2.2.2.2.2.2.2 rawC5E [rowC5E] rowC5E
      ⟨"ValueError", "invalid literal for int() with base 10: x"⟩
      (by rfl) (by rfl) (by simp) (by rfl)⟩

theorem filterMap_ite_eq_filter_map {α β : Type} (p : α → Prop) [DecidablePred p]
    (f : α → β) (l : List α) :
    l.filterMap (fun x => if p x then some (f x) else none) =
      (l.filter (fun x => decide (p x))).map f := by
  induction l with
  | nil => simp
  | cons x rest ih =>
    by_cases h : p x <;> simp [h, ih]

/-- A group surviving the rewriter has at least one surviving title. -/
theorem sectionSpec_titles_ne_nil {sec : String} {ks : List String}
    {ds : PyDict Decision} {wc : Bool} {gs : List Group} {g' : Group}
    (h : g' ∈ sectionSpec sec ks ds wc gs) : g'.titles ≠ [] := by
  unfold sectionSpec at h
  rw [List.mem_filterMap] at h
  obtain ⟨gg, _, hgg⟩ := h
  by_cases hk : (keptTitlesSpec sec gg.1 ks ds gg.2.titles).isEmpty
  · simp only [hk, if_pos] at hgg
    exact absurd hgg (by simp)
  · simp only [hk, Bool.false_eq_true, if_false, Option.some.injEq] at hgg
    rw [← hgg]
    simpa [List.isEmpty_iff] using hk

/-- The rewriter output written out declaratively. -/
theorem applyKeptIds_eq (rd : ReportData) (rss rssNew : Option (List Group))
    (ks : List String) (ds : PyDict Decision) :
    applyKeptIds rd rss rssNew ks ds =
      ({ rd with
          stats := sectionSpec ("hot_stats") ks ds true rd.stats
          newTitles := sectionSpec ("hot_new") ks ds false rd.newTitles
          totalNewCount := some (((sectionSpec ("hot_new") ks ds false rd.newTitles).map
            (fun s => (s.titles.length : Int))).sum) },
        (match rss with
          | some l => if l.isEmpty then none else some (sectionSpec ("rss_stats") ks ds true l)
          | none => none),
        (match rssNew with
          | some l => if l.isEmpty then none else some (sectionSpec ("rss_new") ks ds true l)
          | none => none)) := by
  unfold applyKeptIds
  cases rss with
  | none =>
    cases rssNew with
    | none => simp [sectionLoop_eq]
    | some l2 => by_cases h2 : l2.isEmpty <;> simp [h2, sectionLoop_eq]
  | some l1 =>
    cases rssNew with
    | none => by_cases h1 : l1.isEmpty <;> simp [h1, sectionLoop_eq]
    | some l2 =>
      by_cases h1 : l1.isEmpty <;> by_cases h2 : l2.isEmpty <;>
        simp [h1, h2, sectionLoop_eq]

/-- C6: rewriter shape. The output collections are exactly the input groups
rebuilt with the titles whose positional id is in the kept-id set (each
possibly brief-annotated), in original relative order (`filter` then `map`
over the enumerated titles), and groups with no surviving title are dropped
from their parent collection. -/
theorem c6_rewriter_shape (rd : ReportData) (rss rssNew : Option (List Group))
    (ks : List String) (ds : PyDict Decision) :
    applyKeptIds rd rss rssNew ks ds =
      ({ rd with
          stats := sectionSpec ("hot_stats") ks ds true rd.stats
          newTitles := sectionSpec ("hot_new") ks ds false rd.newTitles
          totalNewCount := some (((sectionSpec ("hot_new") ks ds false rd.newTitles).map
            (fun s => (s.titles.length : Int))).sum) },
        (match rss with
          | some l => if l.isEmpty then none else some (sectionSpec ("rss_stats") ks ds true l)
          | none => none),
        (match rssNew with
          | some l => if l.isEmpty then none else some (sectionSpec ("rss_new") ks ds true l)
          | none => none)) ∧
    (∀ (sec : String) (gi : Nat) (titles : List Entry),
      keptTitlesSpec sec gi ks ds titles =
        ((titles.enum.filter (fun tt => decide (mkId sec gi tt.1 ∈ ks))).map
          (fun tt => annotEntry (dget ds (mkId sec gi tt.1)) tt.2))) ∧
    (∀ (sec : String) (wc : Bool) (gs : List Group), ∀ g' ∈ sectionSpec sec ks ds wc gs,
      g'.titles ≠ []) := by
  refine ⟨applyKeptIds_eq rd rss rssNew ks ds, ?_, ?_⟩
  · intro sec gi titles
    unfold keptTitlesSpec
    exact filterMap_ite_eq_filter_map _ _ _
  · intro sec wc gs g' hg'
    exact sectionSpec_titles_ne_nil hg'

theorem c6_rewriter_shape_witness : gC6.titles ≠ [] :=
  (c6_rewriter_shape rdC6 none none ["hot_stats:0:0"] []).2.2 ("hot_stats") true
    rdC6.stats gC6 (by decide)

/-- A group rewritten with `count` update carries the surviving length. -/
theorem sectionSpec_count_true {sec : String} {ks : List String} {ds : PyDict Decision}
    {gs : List Group} {g' : Group} (h : g' ∈ sectionSpec sec ks ds true gs) :
    g'.count = some (g'.titles.length : Int) := by
  unfold sectionSpec at h
  rw [List.mem_filterMap] at h
  obtain ⟨gg, _, hgg⟩ := h
  by_cases hk : (keptTitlesSpec sec gg.1 ks ds gg.2.titles).isEmpty
  · simp only [hk, if_pos] at hgg
    exact absurd hgg (by simp)
  · simp only [hk, Bool.false_eq_true, if_false, Option.some.injEq] at hgg
    rw [← hgg]
    simp

/-- A group rewritten without `count` update keeps the count of its source
group. -/
theorem sectionSpec_count_false {sec : String} {ks : List String} {ds : PyDict Decision}
    {gs : List Group} {g' : Group} (h : g' ∈ sectionSpec sec ks ds false gs) :
    ∃ g ∈ gs, g'.count = g.count := by
  unfold sectionSpec at h
  rw [List.mem_filterMap] at h
  obtain ⟨gg, hgs, hgg⟩ := h
  by_cases hk : (keptTitlesSpec sec gg.1 ks ds gg.2.titles).isEmpty
  · simp only [hk, if_pos] at hgg
    exact absurd hgg (by simp)
  · simp only [hk, Bool.false_eq_true, if_false, Option.some.injEq] at hgg
    refine ⟨gg.2, ?_, by rw [← hgg]⟩
    have h1 : gs[gg.1]? = some gg.2 := List.mk_mem_enum_iff_getElem?.mp (by simpa using hgs)
    exact List.getElem?_mem h1

/-- C4: count consistency. After a successful filtering pass, every
surviving group of the three count-bearing collections carries
`count = len(titles)`; `new_titles` sections, whose `count` the rewriter
never touches, still carry no count field when the input carried none (so no
surviving group has a count differing from its length); and the output
`total_new_count` is the sum of surviving title-list lengths over the
`new_titles` section. -/
theorem c4_count_consistency (cfg : GateConfig)
    (judgeOne : List Item → Except PyExc (PyDict Decision))
    (rd : ReportData) (rss rssNew : Option (List Group)) (ds : PyDict Decision)
    (hen : cfg.enabled = true) (hkey : pyStrip cfg.apiKey ≠ "")
    (hne : collectCandidates rd rss rssNew ≠ [])
    (hok : (judgeInBatchesTr judgeOne cfg.batchSize
        (evalItemsOf cfg.maxItems (collectCandidates rd rss rssNew))).1 = .ok ds)
    (hnt : ∀ s ∈ rd.newTitles, s.count = none) :
    (∀ g ∈ (filterBeforeSend cfg judgeOne rd rss rssNew).1.stats,
      g.count = some (g.titles.length : Int)) ∧
    (∀ s ∈ (filterBeforeSend cfg judgeOne rd rss rssNew).1.newTitles, s.count = none) ∧
    (∀ l, (filterBeforeSend cfg judgeOne rd rss rssNew).2.1 = some l →
      ∀ g ∈ l, g.count = some (g.titles.length : Int)) ∧
    (∀ l, (filterBeforeSend cfg judgeOne rd rss rssNew).2.2.1 = some l →
      ∀ g ∈ l, g.count = some (g.titles.length : Int)) ∧
    (filterBeforeSend cfg judgeOne rd rss rssNew).1.totalNewCount =
      some (((filterBeforeSend cfg judgeOne rd rss rssNew).1.newTitles.map
        (fun s => (s.titles.length : Int))).sum) := by
  rw [filterBeforeSend_ok cfg judgeOne rd rss rssNew ds hen hkey hne hok]
  simp only [applyKeptIds_eq]
  refine ⟨?_, ?_, ?_, ?_, by trivial⟩
  · intro g hg
    exact sectionSpec_count_true hg
  · intro s hs
    obtain ⟨g, hgmem, hc⟩ := sectionSpec_count_false hs
    rw [hc]
    exact hnt g hgmem
  · intro l hl
    cases rss with
    | none => simp at hl
    | some l1 =>
      by_cases h1 : l1.isEmpty
      · simp [h1] at hl
      · simp [h1] at hl
        intro g hg
        rw [← hl] at hg
        exact sectionSpec_count_true hg
  · intro l hl
    cases rssNew with
    | none => simp at hl
    | some l2 =>
      by_cases h2 : l2.isEmpty
      · simp [h2] at hl
      · simp [h2] at hl
        intro g hg
        rw [← hl] at hg
        exact sectionSpec_count_true hg

/-- C3 counterexample: `max_items = 1 < 2` candidates, the evaluation batch
contains only candidate `A`, yet the run succeeds (`stats.error` empty) and
candidate `B` — at position `1 ≥ k` — is dropped from the output, because
`_judge_batch` keys decisions by whatever ids the service returns and the
merger consults the decision map for *all* candidates. A decision can
therefore exist for an id that was never in an evaluation batch, and
candidates beyond the cap are not kept regardless of the service response. -/
theorem c3_counterexample :
    cfgC3.maxItems = 1 ∧
    (collectCandidates rdC3 none none).length = 2 ∧
    (evalItemsOf cfgC3.maxItems (collectCandidates rdC3 none none)).map Item.title = ["A"] ∧
    (filterBeforeSend cfgC3 judgeOneC3 rdC3 none none).2.2.2.error = "" ∧
    (filterBeforeSend cfgC3 judgeOneC3 rdC3 none none).1.stats =
      [⟨"g", some 1, [{ title := "A" }], ""⟩] := by
  refine ⟨rfl, by rfl, by rfl, by rfl, by rfl⟩

/-- C3 amended: candidates at positions `≥ k` are present in the kept-id set
(hence, by C6's rewriter characterization, in the output) **provided every
decision id the service returns is among the ids of the evaluated (first
`k`) candidates** — the code never validates this, so the guarantee holds
only for a service that echoes ids it was sent. -/
theorem c3_default_keep_beyond_cap (minScore : Int) (rd : ReportData)
    (rss rssNew : Option (List Group)) (ds : PyDict Decision) (k : Nat)
    (hdec : ∀ K ∈ ds.map Prod.fst,
      K ∈ ((collectCandidates rd rss rssNew).take k).map Item.id) :
    ∀ it ∈ (collectCandidates rd rss rssNew).drop k,
      it.id ∈ computeKeepIds minScore (collectCandidates rd rss rssNew) ds := by
  intro it hit
  have hmem : it ∈ collectCandidates rd rss rssNew := List.drop_subset _ _ hit
  rw [mem_computeKeepIds]
  refine ⟨⟨it, hmem, rfl⟩, ?_⟩
  unfold keepCond
  cases hd : dget ds it.id with
  | none => rfl
  | some d =>
    exfalso
    have hkey : it.id ∈ ds.map Prod.fst := by
      unfold dget at hd
      cases hfind : ds.find? (fun p => p.1 = it.id) with
      | none => rw [hfind] at hd; exact absurd hd (by simp)
      | some q =>
        have hq := List.find?_some hfind
        have hqm := List.mem_of_find?_eq_some hfind
        have hq1 : q.1 = it.id := by simpa using hq
        exact hq1 ▸ List.mem_map_of_mem Prod.fst hqm
    have htake := hdec _ hkey
    have hnd := nodup_collect_ids rd rss rssNew
    have hsplit : (collectCandidates rd rss rssNew).map Item.id =
        ((collectCandidates rd rss rssNew).take k).map Item.id ++
          ((collectCandidates rd rss rssNew).drop k).map Item.id := by
      rw [← List.map_append, List.take_append_drop]
    rw [hsplit, List.nodup_append] at hnd
    exact hnd.2.2 htake (List.mem_map_of_mem Item.id hit)

theorem annotEntry_title (d : Option Decision) (t : Entry) :
    (annotEntry d t).title = t.title := by
  cases d with
  | none => rfl
  | some dd =>
    simp only [annotEntry]
    by_cases h : dd.brief ≠ ""
    · rw [if_pos h]
    · rw [if_neg h]

/-- Every entry of a rewritten group comes from a position of the original
group whose id is in the kept-id set. -/
theorem entry_of_sectionSpec {sec : String} {ks : List String} {ds : PyDict Decision}
    {wc : Bool} {gs : List Group} {g' : Group} {t' : Entry}
    (hg' : g' ∈ sectionSpec sec ks ds wc gs) (ht' : t' ∈ g'.titles) :
    ∃ gi g ti t, gs[gi]? = some g ∧ g.titles[ti]? = some t ∧
      mkId sec gi ti ∈ ks ∧ t' = annotEntry (dget ds (mkId sec gi ti)) t := by
  unfold sectionSpec at hg'
  rw [List.mem_filterMap] at hg'
  obtain ⟨gg, hgg, hsome⟩ := hg'
  by_cases hk : (keptTitlesSpec sec gg.1 ks ds gg.2.titles).isEmpty
  · simp [hk] at hsome
  · simp only [hk, Bool.false_eq_true, if_false, Option.some.injEq] at hsome
    have ht2 : t' ∈ keptTitlesSpec sec gg.1 ks ds gg.2.titles := by
      rw [← hsome] at ht'
      exact ht'
    unfold keptTitlesSpec at ht2
    rw [List.mem_filterMap] at ht2
    obtain ⟨tt, htt, hts⟩ := ht2
    by_cases hkt : mkId sec gg.1 tt.1 ∈ ks
    · rw [if_pos hkt] at hts
      refine ⟨gg.1, gg.2, tt.1, tt.2, ?_, ?_, hkt, (Option.some.inj hts).symm⟩
      · exact List.mk_mem_enum_iff_getElem?.mp (by simpa using hgg)
      · exact List.mk_mem_enum_iff_getElem?.mp (by simpa using htt)
    · rw [if_neg hkt] at hts
      exact absurd hts (by simp)

/-- A kept id always addresses a position whose original title is
non-blank: blank-titled entries receive no candidate id at collection time,
so their positional id can never enter the kept-id set. -/
theorem keepIds_position_nonblank (minScore : Int) (ds : PyDict Decision)
    (rd : ReportData) (rss rssNew : Option (List Group))
    {sec : String} {gs : List Group} {gi ti : Nat} {g : Group} {t : Entry}
    (hpair : (sec, gs) = ("hot_stats", rd.stats) ∨ (sec, gs) = ("hot_new", rd.newTitles) ∨
      (sec, gs) = ("rss_stats", rss.getD []) ∨ (sec, gs) = ("rss_new", rssNew.getD []))
    (hg : gs[gi]? = some g) (ht : g.titles[ti]? = some t)
    (hk : mkId sec gi ti ∈ computeKeepIds minScore (collectCandidates rd rss rssNew) ds) :
    pyStrip t.title ≠ "" := by
  obtain ⟨⟨it, hitmem, hitid⟩, _⟩ := mem_computeKeepIds.mp hk
  have hidmem : mkId sec gi ti ∈ (collectCandidates rd rss rssNew).map Item.id := by
    rw [← hitid]
    exact List.mem_map_of_mem Item.id hitmem
  rw [collect_ids_eq] at hidmem
  have c1 : ∀ c ∈ ("hot_stats" : String).data, c ≠ ':' := by decide
  have c2 : ∀ c ∈ ("hot_new" : String).data, c ≠ ':' := by decide
  have c3 : ∀ c ∈ ("rss_stats" : String).data, c ≠ ':' := by decide
  have c4 : ∀ c ∈ ("rss_new" : String).data, c ≠ ':' := by decide
  have hcs : ∀ c ∈ sec.data, c ≠ ':' := by
    rcases hpair with hp | hp | hp | hp <;>
      (obtain ⟨rfl, -⟩ := Prod.mk.injEq .. |>.mp hp) <;> assumption
  rcases List.mem_append.mp hidmem with hin | hin4
  · rcases List.mem_append.mp hin with hin | hin3
    · rcases List.mem_append.mp hin with hin1 | hin2
      · obtain ⟨gi', g', ti', t', hg', ht', hnb, heq⟩ := mem_sectionIds.mp hin1
        obtain ⟨hsec, hgi, hti⟩ := mkId_injective hcs c1 heq
        rcases hpair with hp | hp | hp | hp <;>
          obtain ⟨he1, he2⟩ := Prod.mk.injEq .. |>.mp hp
        · subst he2
          subst hgi
          subst hti
          rw [hg] at hg'
          obtain rfl := Option.some.inj hg'
          rw [ht] at ht'
          obtain rfl := Option.some.inj ht'
          exact hnb
        · rw [he1] at hsec
          exact absurd hsec (by decide)
        · rw [he1] at hsec
          exact absurd hsec (by decide)
        · rw [he1] at hsec
          exact absurd hsec (by decide)
      · obtain ⟨gi', g', ti', t', hg', ht', hnb, heq⟩ := mem_sectionIds.mp hin2
        obtain ⟨hsec, hgi, hti⟩ := mkId_injective hcs c2 heq
        rcases hpair with hp | hp | hp | hp <;>
          obtain ⟨he1, he2⟩ := Prod.mk.injEq .. |>.mp hp
        · rw [he1] at hsec
          exact absurd hsec (by decide)
        · subst he2
          subst hgi
          subst hti
          rw [hg] at hg'
          obtain rfl := Option.some.inj hg'
          rw [ht] at ht'
          obtain rfl := Option.some.inj ht'
          exact hnb
        · rw [he1] at hsec
          exact absurd hsec (by decide)
        · rw [he1] at hsec
          exact absurd hsec (by decide)
    · obtain ⟨gi', g', ti', t', hg', ht', hnb, heq⟩ := mem_sectionIds.mp hin3
      obtain ⟨hsec, hgi, hti⟩ := mkId_injective hcs c3 heq
      rcases hpair with hp | hp | hp | hp <;>
        obtain ⟨he1, he2⟩ := Prod.mk.injEq .. |>.mp hp
      · rw [he1] at hsec
        exact absurd hsec (by decide)
      · rw [he1] at hsec
        exact absurd hsec (by decide)
      · subst he2
        subst hgi
        subst hti
        rw [hg] at hg'
        obtain rfl := Option.some.inj hg'
        rw [ht] at ht'
        obtain rfl := Option.some.inj ht'
        exact hnb
      · rw [he1] at hsec
        exact absurd hsec (by decide)
  · obtain ⟨gi', g', ti', t', hg', ht', hnb, heq⟩ := mem_sectionIds.mp hin4
    obtain ⟨hsec, hgi, hti⟩ := mkId_injective hcs c4 heq
    rcases hpair with hp | hp | hp | hp <;>
      obtain ⟨he1, he2⟩ := Prod.mk.injEq .. |>.mp hp
    · rw [he1] at hsec
      exact absurd hsec (by decide)
    · rw [he1] at hsec
      exact absurd hsec (by decide)
    · rw [he1] at hsec
      exact absurd hsec (by decide)
    · subst he2
      subst hgi
      subst hti
      rw [hg] at hg'
      obtain rfl := Option.some.inj hg'
      rw [ht] at ht'
      obtain rfl := Option.some.inj ht'
      exact hnb

/-- C10: blank-titled entries are dropped. With the gate enabled, a key
configured, at least one candidate collected, and a successful evaluation
pass, every entry in every returned collection has a non-blank title: an
entry with an empty or whitespace-only title receives no candidate id at
collection time, so its positional id can never be in the kept-id set the
rewriter checks. -/
theorem c10_blank_titles_dropped (cfg : GateConfig)
    (judgeOne : List Item → Except PyExc (PyDict Decision))
    (rd : ReportData) (rss rssNew : Option (List Group)) (ds : PyDict Decision)
    (hen : cfg.enabled = true) (hkey : pyStrip cfg.apiKey ≠ "")
    (hne : collectCandidates rd rss rssNew ≠ [])
    (hok : (judgeInBatchesTr judgeOne cfg.batchSize
        (evalItemsOf cfg.maxItems (collectCandidates rd rss rssNew))).1 = .ok ds) :
    (∀ g ∈ (filterBeforeSend cfg judgeOne rd rss rssNew).1.stats,
      ∀ t ∈ g.titles, pyStrip t.title ≠ "") ∧
    (∀ s ∈ (filterBeforeSend cfg judgeOne rd rss rssNew).1.newTitles,
      ∀ t ∈ s.titles, pyStrip t.title ≠ "") ∧
    (∀ l, (filterBeforeSend cfg judgeOne rd rss rssNew).2.1 = some l →
      ∀ g ∈ l, ∀ t ∈ g.titles, pyStrip t.title ≠ "") ∧
    (∀ l, (filterBeforeSend cfg judgeOne rd rss rssNew).2.2.1 = some l →
      ∀ g ∈ l, ∀ t ∈ g.titles, pyStrip t.title ≠ "") := by
  rw [filterBeforeSend_ok cfg judgeOne rd rss rssNew ds hen hkey hne hok]
  simp only [applyKeptIds_eq]
  refine ⟨?_, ?_, ?_, ?_⟩
  · intro g hg t ht
    obtain ⟨gi, g0, ti, t0, hg0, ht0, hk, hannot⟩ := entry_of_sectionSpec hg ht
    rw [hannot, annotEntry_title]
    exact keepIds_position_nonblank cfg.minScore ds rd rss rssNew (Or.inl rfl) hg0 ht0 hk
  · intro s hs t ht
    obtain ⟨gi, g0, ti, t0, hg0, ht0, hk, hannot⟩ := entry_of_sectionSpec hs ht
    rw [hannot, annotEntry_title]
    exact keepIds_position_nonblank cfg.minScore ds rd rss rssNew (Or.inr (Or.inl rfl))
      hg0 ht0 hk
  · intro l hl
    cases rss with
    | none => simp at hl
    | some l1 =>
      by_cases h1 : l1.isEmpty
      · simp [h1] at hl
      · simp [h1] at hl
        intro g hg t ht
        rw [← hl] at hg
        obtain ⟨gi, g0, ti, t0, hg0, ht0, hk, hannot⟩ := entry_of_sectionSpec hg ht
        rw [hannot, annotEntry_title]
        refine keepIds_position_nonblank cfg.minScore ds rd (some l1) rssNew
          (Or.inr (Or.inr (Or.inl ?_))) hg0 ht0 hk
        rfl
  · intro l hl
    cases rssNew with
    | none => simp at hl
    | some l2 =>
      by_cases h2 : l2.isEmpty
      · simp [h2] at hl
      · simp [h2] at hl
        intro g hg t ht
        rw [← hl] at hg
        obtain ⟨gi, g0, ti, t0, hg0, ht0, hk, hannot⟩ := entry_of_sectionSpec hg ht
        rw [hannot, annotEntry_title]
        refine keepIds_position_nonblank cfg.minScore ds rd rss (some l2)
          (Or.inr (Or.inr (Or.inr ?_))) hg0 ht0 hk
        rfl

set_option maxRecDepth 100000 in
theorem c10_blank_titles_dropped_witness :
    (⟨"g", some 1, [{ title := "B" }], ""⟩ : Group) ∈
      (filterBeforeSend cfgE2E judgeOneC10 rdC10 none none).1.stats ∧
    pyStrip (Entry.title { title := "B" }) ≠ "" :=
  ⟨by decide,
    (c10_blank_titles_dropped cfgE2E judgeOneC10 rdC10 none none _ rfl (by decide)
      (by decide) (by rfl)).1 ⟨"g", some 1, [{ title := "B" }], ""⟩ (by decide)
      { title := "B" } (by decide)⟩

theorem tailClosed_init (h : Heap) : TailClosed h.length h := by
  intro a o ha hg b _
  rw [hget] at hg
  obtain ⟨hlt, -⟩ := List.getElem?_eq_some_iff.mp hg
  omega

theorem halloc_spec {N : Nat} {h : Heap} (o : HObj) (_hN : N ≤ h.length)
    (hT : TailClosed N h) (ho : ∀ b ∈ objAddrs o, N ≤ b) :
    (∀ b, b < h.length → hget (h ++ [o]) b = hget h b) ∧
    h.length + 1 = (h ++ [o]).length ∧
    TailClosed N (h ++ [o]) := by
  refine ⟨?_, by simp, ?_⟩
  · intro b hb
    exact List.getElem?_append_left hb
  · intro a obj ha hg b hb
    rw [hget, List.getElem?_append] at hg
    split at hg
    · exact hT a obj ha hg b hb
    · next hge =>
      have : a - h.length = 0 ∨ 1 ≤ a - h.length := by omega
      rcases this with h0 | h1
      · rw [h0] at hg
        simp at hg
        rw [← hg] at hb
        exact ho b hb
      · rw [show [o][a - h.length]? = none from
          List.getElem?_eq_none (by simpa using h1)] at hg
        exact absurd hg (by simp)

/-- Writing an object whose children are all `≥ N` at an address `≥ N`
touches nothing below `N` and keeps the tail closed. -/
theorem hset_spec {N : Nat} {h : Heap} {c : Nat} (o : HObj) (hc : N ≤ c)
    (hT : TailClosed N h) (ho : ∀ b ∈ objAddrs o, N ≤ b) :
    (∀ b, b < N → hget (hset h c o) b = hget h b) ∧ TailClosed N (hset h c o) := by
  constructor
  · intro b hb
    exact List.getElem?_set_ne (by omega)
  · intro a obj ha hg b hb
    rw [hget, hset, List.getElem?_set] at hg
    split at hg
    · split at hg
      · rw [← Option.some.inj hg] at hb
        exact ho b hb
      · exact absurd hg (by simp)
    · exact hT a obj ha hg b hb

theorem copyEntryH_spec {N : Nat} {h : Heap} (a : Nat) (hN : N ≤ h.length)
    (hT : TailClosed N h) :
    (∀ b, b < h.length → hget (copyEntryH h a).1 b = hget h b) ∧
    h.length ≤ (copyEntryH h a).1.length ∧ N ≤ (copyEntryH h a).2 ∧
    TailClosed N (copyEntryH h a).1 := by
  unfold copyEntryH
  cases hga : hget h a with
  | none =>
    obtain ⟨hp, hl, hc⟩ := halloc_spec (N := N) (h := h) (.entry {}) hN hT (by simp [objAddrs])
    exact ⟨hp, by simp [halloc], hN, hc⟩
  | some o =>
    cases o with
    | entry e =>
      obtain ⟨hp, hl, hc⟩ := halloc_spec (N := N) (h := h) (.entry e) hN hT (by simp [objAddrs])
      exact ⟨hp, by simp [halloc], hN, hc⟩
    | group w c ts ex =>
      obtain ⟨hp, hl, hc⟩ := halloc_spec (N := N) (h := h) (.entry {}) hN hT (by simp [objAddrs])
      exact ⟨hp, by simp [halloc], hN, hc⟩
    | report ss nt tnc ex =>
      obtain ⟨hp, hl, hc⟩ := halloc_spec (N := N) (h := h) (.entry {}) hN hT (by simp [objAddrs])
      exact ⟨hp, by simp [halloc], hN, hc⟩

theorem copyEntriesH_spec {N : Nat} :
    ∀ (addrs : List Nat) (h : Heap), N ≤ h.length → TailClosed N h →
    (∀ b, b < h.length → hget (copyEntriesH h addrs).1 b = hget h b) ∧
    h.length ≤ (copyEntriesH h addrs).1.length ∧
    (∀ r ∈ (copyEntriesH h addrs).2, N ≤ r) ∧
    TailClosed N (copyEntriesH h addrs).1 := by
  intro addrs
  induction addrs with
  | nil =>
    intro h hN hT
    exact ⟨fun b _ => rfl, le_rfl, by simp [copyEntriesH], hT⟩
  | cons a rest ih =>
    intro h hN hT
    obtain ⟨hp1, hl1, hr1, hT1⟩ := copyEntryH_spec (N := N) (h := h) a hN hT
    obtain ⟨hp2, hl2, hr2, hT2⟩ := ih (copyEntryH h a).1 (le_trans hN hl1) hT1
    rw [copyEntriesH]
    refine ⟨?_, ?_, ?_, hT2⟩
    · intro b hb
      rw [hp2 b (lt_of_lt_of_le hb hl1), hp1 b hb]
    · exact le_trans hl1 hl2
    · intro r hr
      rcases List.mem_cons.mp hr with rfl | hr
      · exact hr1
      · exact hr2 r hr

theorem copyGroupH_spec {N : Nat} {h : Heap} (a : Nat) (hN : N ≤ h.length)
    (hT : TailClosed N h) :
    (∀ b, b < h.length → hget (copyGroupH h a).1 b = hget h b) ∧
    h.length ≤ (copyGroupH h a).1.length ∧ N ≤ (copyGroupH h a).2 ∧
    TailClosed N (copyGroupH h a).1 := by
  unfold copyGroupH
  cases hga : hget h a with
  | none =>
    obtain ⟨hp, hl, hc⟩ := halloc_spec (N := N) (h := h) (.group "" none [] "") hN hT
      (by simp [objAddrs])
    exact ⟨hp, by simp [halloc], hN, hc⟩
  | some o =>
    cases o with
    | entry e =>
      obtain ⟨hp, hl, hc⟩ := halloc_spec (N := N) (h := h) (.group "" none [] "") hN hT
        (by simp [objAddrs])
      exact ⟨hp, by simp [halloc], hN, hc⟩
    | group w c ts ex =>
      dsimp only [halloc]
      obtain ⟨hp1, hl1, hr1, hT1⟩ := copyEntriesH_spec (N := N) ts h hN hT
      obtain ⟨hp2, hl2, hc2⟩ := halloc_spec (N := N) (h := (copyEntriesH h ts).1)
        (.group w c (copyEntriesH h ts).2 ex) (le_trans hN hl1) hT1
        (by simpa [objAddrs] using hr1)

      refine ⟨?_, ?_, le_trans hN hl1, hc2⟩
      · intro b hb
        rw [hp2 b (lt_of_lt_of_le hb hl1), hp1 b hb]
      · calc h.length ≤ (copyEntriesH h ts).1.length := hl1
          _ ≤ (copyEntriesH h ts).1.length + 1 := by omega
          _ = ((copyEntriesH h ts).1 ++ [HObj.group w c (copyEntriesH h ts).2 ex]).length := by
            simp
    | report ss nt tnc ex =>
      obtain ⟨hp, hl, hc⟩ := halloc_spec (N := N) (h := h) (.group "" none [] "") hN hT
        (by simp [objAddrs])
      exact ⟨hp, by simp [halloc], hN, hc⟩

theorem copyGroupsH_spec {N : Nat} :
    ∀ (addrs : List Nat) (h : Heap), N ≤ h.length → TailClosed N h →
    (∀ b, b < h.length → hget (copyGroupsH h addrs).1 b = hget h b) ∧
    h.length ≤ (copyGroupsH h addrs).1.length ∧
    (∀ r ∈ (copyGroupsH h addrs).2, N ≤ r) ∧
    TailClosed N (copyGroupsH h addrs).1 := by
  intro addrs
  induction addrs with
  | nil =>
    intro h hN hT
    exact ⟨fun b _ => rfl, le_rfl, by simp [copyGroupsH], hT⟩
  | cons a rest ih =>
    intro h hN hT
    obtain ⟨hp1, hl1, hr1, hT1⟩ := copyGroupH_spec (N := N) (h := h) a hN hT
    obtain ⟨hp2, hl2, hr2, hT2⟩ := ih (copyGroupH h a).1 (le_trans hN hl1) hT1
    rw [copyGroupsH]
    refine ⟨?_, ?_, ?_, hT2⟩
    · intro b hb
      rw [hp2 b (lt_of_lt_of_le hb hl1), hp1 b hb]
    · exact le_trans hl1 hl2
    · intro r hr
      rcases List.mem_cons.mp hr with rfl | hr
      · exact hr1
      · exact hr2 r hr

theorem copyReportH_spec {N : Nat} {h : Heap} (a : Nat) (hN : N ≤ h.length)
    (hT : TailClosed N h) :
    (∀ b, b < h.length → hget (copyReportH h a).1 b = hget h b) ∧
    h.length ≤ (copyReportH h a).1.length ∧ N ≤ (copyReportH h a).2 ∧
    TailClosed N (copyReportH h a).1 := by
  unfold copyReportH
  cases hga : hget h a with
  | none =>
    obtain ⟨hp, hl, hc⟩ := halloc_spec (N := N) (h := h) (.report [] [] none "") hN hT
      (by simp [objAddrs])
    exact ⟨hp, by simp [halloc], hN, hc⟩
  | some o =>
    cases o with
    | entry e =>
      obtain ⟨hp, hl, hc⟩ := halloc_spec (N := N) (h := h) (.report [] [] none "") hN hT
        (by simp [objAddrs])
      exact ⟨hp, by simp [halloc], hN, hc⟩
    | group w c ts ex =>
      obtain ⟨hp, hl, hc⟩ := halloc_spec (N := N) (h := h) (.report [] [] none "") hN hT
        (by simp [objAddrs])
      exact ⟨hp, by simp [halloc], hN, hc⟩
    | report ss nt tnc ex =>
      dsimp only [halloc]
      obtain ⟨hp1, hl1, hr1, hT1⟩ := copyGroupsH_spec (N := N) ss h hN hT
      obtain ⟨hp2, hl2, hr2, hT2⟩ := copyGroupsH_spec (N := N) nt (copyGroupsH h ss).1
        (le_trans hN hl1) hT1
      obtain ⟨hp3, hl3, hc3⟩ := halloc_spec (N := N)
        (h := (copyGroupsH (copyGroupsH h ss).1 nt).1)
        (.report (copyGroupsH h ss).2 (copyGroupsH (copyGroupsH h ss).1 nt).2 tnc ex)
        (le_trans (le_trans hN hl1) hl2) hT2
        (by
          intro b hb
          simp only [objAddrs] at hb
          rcases List.mem_append.mp hb with hb | hb
          · exact hr1 b hb
          · exact hr2 b hb)
      refine ⟨?_, ?_, le_trans (le_trans hN hl1) hl2, hc3⟩
      · intro b hb
        rw [hp3 b (lt_of_lt_of_le hb (le_trans hl1 hl2)),
          hp2 b (lt_of_lt_of_le hb hl1), hp1 b hb]
      · have := le_trans hl1 hl2
        calc h.length ≤ (copyGroupsH (copyGroupsH h ss).1 nt).1.length := this
          _ ≤ _ := by simp

theorem annotWriteH_spec {N : Nat} {h : Heap} {a : Nat} (d : Option Decision)
    (ha : N ≤ a) (hT : TailClosed N h) :
    (∀ b, b < N → hget (annotWriteH h a d) b = hget h b) ∧
    TailClosed N (annotWriteH h a d) := by
  unfold annotWriteH
  cases d with
  | none => exact ⟨fun b _ => rfl, hT⟩
  | some dd =>
    dsimp only
    by_cases hbr : dd.brief ≠ ""
    · rw [if_pos hbr]
      cases hga : hget h a with
      | none => exact ⟨fun b _ => rfl, hT⟩
      | some o =>
        cases o with
        | entry e => exact hset_spec _ ha hT (by simp [objAddrs])
        | group w c ts ex => exact ⟨fun b _ => rfl, hT⟩
        | report ss nt tnc ex => exact ⟨fun b _ => rfl, hT⟩
    · rw [if_neg hbr]
      exact ⟨fun b _ => rfl, hT⟩

theorem keptTitlesGoH_spec {N : Nat} (sec : String) (gi : Nat) (ks : List String)
    (ds : PyDict Decision) :
    ∀ (titleAddrs : List Nat) (h : Heap) (kept : List Nat) (ti : Nat),
      (∀ x ∈ titleAddrs, N ≤ x) → (∀ x ∈ kept, N ≤ x) → TailClosed N h →
      (∀ b, b < N →
        hget (keptTitlesGoH sec gi ks ds titleAddrs h kept ti).1 b = hget h b) ∧
      TailClosed N (keptTitlesGoH sec gi ks ds titleAddrs h kept ti).1 ∧
      (∀ x ∈ (keptTitlesGoH sec gi ks ds titleAddrs h kept ti).2, N ≤ x) := by
  intro titleAddrs
  induction titleAddrs with
  | nil =>
    intro h kept ti _ hkept hT
    exact ⟨fun b _ => rfl, hT, hkept⟩
  | cons a rest ih =>
    intro h kept ti hts hkept hT
    rw [keptTitlesGoH]
    have haN : N ≤ a := hts a (by simp)
    by_cases hk : mkId sec gi ti ∈ ks
    · rw [if_pos hk]
      obtain ⟨hp1, hT1⟩ := annotWriteH_spec (N := N) (h := h) (a := a)
        (dget ds (mkId sec gi ti)) haN hT
      obtain ⟨hp2, hT2, hks2⟩ := ih (annotWriteH h a (dget ds (mkId sec gi ti)))
        (kept ++ [a]) (ti + 1) (fun x hx => hts x (by simp [hx]))
        (by
          intro x hx
          rcases List.mem_append.mp hx with hx | hx
          · exact hkept x hx
          · rw [List.mem_singleton.mp hx]
            exact haN)
        hT1
      exact ⟨fun b hb => (hp2 b hb).trans (hp1 b hb), hT2, hks2⟩
    · rw [if_neg hk]
      exact ih h kept (ti + 1) (fun x hx => hts x (by simp [hx])) hkept hT

theorem sectionGoH_spec {N : Nat} (sec : String) (ks : List String)
    (ds : PyDict Decision) (wc : Bool) :
    ∀ (groupAddrs : List Nat) (h : Heap) (out : List Nat) (gi : Nat),
      (∀ x ∈ groupAddrs, N ≤ x) → (∀ x ∈ out, N ≤ x) → TailClosed N h →
      (∀ b, b < N →
        hget (sectionGoH sec ks ds wc groupAddrs h out gi).1 b = hget h b) ∧
      TailClosed N (sectionGoH sec ks ds wc groupAddrs h out gi).1 ∧
      (∀ x ∈ (sectionGoH sec ks ds wc groupAddrs h out gi).2, N ≤ x) := by
  intro groupAddrs
  induction groupAddrs with
  | nil =>
    intro h out gi _ hout hT
    exact ⟨fun b _ => rfl, hT, hout⟩
  | cons a rest ih =>
    intro h out gi hgs hout hT
    rw [sectionGoH]
    have haN : N ≤ a := hgs a (by simp)
    cases hga : hget h a with
    | none =>
      exact ih h out (gi + 1) (fun x hx => hgs x (by simp [hx])) hout hT
    | some o =>
      cases o with
      | entry e =>
        exact ih h out (gi + 1) (fun x hx => hgs x (by simp [hx])) hout hT
      | report ss nt tnc ex =>
        exact ih h out (gi + 1) (fun x hx => hgs x (by simp [hx])) hout hT
      | group w c ts ex =>
        dsimp only
        have hts : ∀ x ∈ ts, N ≤ x := hT a _ haN hga
        obtain ⟨hp1, hT1, hks1⟩ := keptTitlesGoH_spec (N := N) sec gi ks ds ts h [] 0
          hts (by simp) hT
        by_cases hk : (keptTitlesLoopH h sec gi ks ds ts).2.isEmpty
        · rw [if_pos hk]
          obtain ⟨hp2, hT2, hks2⟩ := ih (keptTitlesLoopH h sec gi ks ds ts).1 out (gi + 1)
            (fun x hx => hgs x (by simp [hx])) hout hT1
          exact ⟨fun b hb => (hp2 b hb).trans (hp1 b hb), hT2, hks2⟩
        · rw [if_neg hk]
          obtain ⟨hp15, hT15⟩ := hset_spec (N := N)
            (h := (keptTitlesLoopH h sec gi ks ds ts).1) (c := a)
            (.group w (if wc then some ((keptTitlesLoopH h sec gi ks ds ts).2.length : Int)
              else c) (keptTitlesLoopH h sec gi ks ds ts).2 ex) haN hT1
            (by simpa [objAddrs] using hks1)
          obtain ⟨hp2, hT2, hks2⟩ := ih _ (out ++ [a]) (gi + 1)
            (fun x hx => hgs x (by simp [hx]))
            (by
              intro x hx
              rcases List.mem_append.mp hx with hx | hx
              · exact hout x hx
              · rw [List.mem_singleton.mp hx]
                exact haN)
            hT15
          exact ⟨fun b hb => ((hp2 b hb).trans (hp15 b hb)).trans (hp1 b hb), hT2, hks2⟩

theorem copyRssH_spec {N : Nat} {h : Heap} (rssA : Option (List Nat))
    (hN : N ≤ h.length) (hT : TailClosed N h) :
    (∀ b, b < h.length → hget (copyRssH h rssA).1 b = hget h b) ∧
    h.length ≤ (copyRssH h rssA).1.length ∧
    (∀ rl, (copyRssH h rssA).2 = some rl → ∀ x ∈ rl, N ≤ x) ∧
    TailClosed N (copyRssH h rssA).1 := by
  unfold copyRssH
  cases rssA with
  | none => exact ⟨fun b _ => rfl, le_rfl, by simp, hT⟩
  | some l =>
    dsimp only
    by_cases hle : l.isEmpty
    · rw [if_pos hle]
      exact ⟨fun b _ => rfl, le_rfl, by simp, hT⟩
    · rw [if_neg hle]
      obtain ⟨hp, hl, hr, hT2⟩ := copyGroupsH_spec (N := N) l h hN hT
      refine ⟨hp, hl, ?_, hT2⟩
      intro rl hrl x hx
      rw [← Option.some.inj hrl] at hx
      exact hr x hx

theorem sectionLoopH_spec {N : Nat} (sec : String) (ks : List String)
    (ds : PyDict Decision) (wc : Bool) (groupAddrs : List Nat) (h : Heap)
    (hgs : ∀ x ∈ groupAddrs, N ≤ x) (hT : TailClosed N h) :
    (∀ b, b < N → hget (sectionLoopH h sec ks ds wc groupAddrs).1 b = hget h b) ∧
    TailClosed N (sectionLoopH h sec ks ds wc groupAddrs).1 ∧
    (∀ x ∈ (sectionLoopH h sec ks ds wc groupAddrs).2, N ≤ x) := by
  unfold sectionLoopH
  exact sectionGoH_spec sec ks ds wc groupAddrs h [] 0 hgs (by simp) hT

theorem rewriteSectionsH_preserves {N : Nat} {h : Heap} {c : Nat}
    (rssC rssNewC : Option (List Nat)) (keepIds : List String)
    (decisions : PyDict Decision) (hrd : N ≤ c) (hT : TailClosed N h)
    (hrss : ∀ rl, rssC = some rl → ∀ x ∈ rl, N ≤ x)
    (hrssNew : ∀ rl, rssNewC = some rl → ∀ x ∈ rl, N ≤ x) :
    ∀ b, b < N →
      hget (rewriteSectionsH h c rssC rssNewC keepIds decisions).1 b = hget h b := by
  intro b hb
  unfold rewriteSectionsH
  cases hrep : hget h c with
  | none => rfl
  | some o =>
    cases o with
    | entry e => rfl
    | group w c ts ex => rfl
    | report sAddrs ntAddrs tnc ex =>
      dsimp only
      have hchild := hT c _ hrd hrep
      have hss : ∀ x ∈ sAddrs, N ≤ x := fun x hx =>
        hchild x (by simp [objAddrs, hx])
      have hnt : ∀ x ∈ ntAddrs, N ≤ x := fun x hx =>
        hchild x (by simp [objAddrs, hx])
      set s1 := sectionLoopH h ("hot_stats") keepIds decisions true sAddrs with hs1
      set h5 := hset s1.1 c (HObj.report s1.2 ntAddrs tnc ex) with hh5
      set s2 := sectionLoopH h5 ("hot_new") keepIds decisions false ntAddrs with hs2
      set h6 := hset s2.1 c (HObj.report s1.2 s2.2 tnc ex) with hh6
      set tnc2 := (s2.2.map (groupLen h6)).sum with htnc2
      set h7 := hset h6 c (HObj.report s1.2 s2.2 (some tnc2) ex) with hh7
      obtain ⟨hp1, hT1, hks1⟩ := sectionLoopH_spec (N := N) ("hot_stats") keepIds
        decisions true sAddrs h hss hT
      rw [← hs1] at hp1 hT1 hks1
      obtain ⟨hp5, hT5⟩ := hset_spec (N := N) (h := s1.1) (c := c)
        (HObj.report s1.2 ntAddrs tnc ex) hrd hT1
        (by
          intro x hx
          simp only [objAddrs] at hx
          rcases List.mem_append.mp hx with hx | hx
          · exact hks1 x hx
          · exact hnt x hx)
      rw [← hh5] at hp5 hT5
      obtain ⟨hp2, hT2, hks2⟩ := sectionLoopH_spec (N := N) ("hot_new") keepIds
        decisions false ntAddrs h5 hnt hT5
      rw [← hs2] at hp2 hT2 hks2
      obtain ⟨hp6, hT6⟩ := hset_spec (N := N) (h := s2.1) (c := c)
        (HObj.report s1.2 s2.2 tnc ex) hrd hT2
        (by
          intro x hx
          simp only [objAddrs] at hx
          rcases List.mem_append.mp hx with hx | hx
          · exact hks1 x hx
          · exact hks2 x hx)
      rw [← hh6] at hp6 hT6
      obtain ⟨hp7, hT7⟩ := hset_spec (N := N) (h := h6) (c := c)
        (HObj.report s1.2 s2.2 (some tnc2) ex) hrd hT6
        (by
          intro x hx
          simp only [objAddrs] at hx
          rcases List.mem_append.mp hx with hx | hx
          · exact hks1 x hx
          · exact hks2 x hx)
      rw [← hh7] at hp7 hT7
      cases rssC with
      | none =>
        cases rssNewC with
        | none =>
          dsimp only
          rw [hp7 b hb, hp6 b hb, hp2 b hb, hp5 b hb, hp1 b hb]
        | some l2 =>
          dsimp only
          obtain ⟨hp4, hT4, hks4⟩ := sectionLoopH_spec (N := N) ("rss_new") keepIds
            decisions true l2 h7 (hrssNew l2 rfl) hT7
          rw [hp4 b hb, hp7 b hb, hp6 b hb, hp2 b hb, hp5 b hb, hp1 b hb]
      | some l =>
        obtain ⟨hp3, hT3, hks3⟩ := sectionLoopH_spec (N := N) ("rss_stats") keepIds
          decisions true l h7 (hrss l rfl) hT7
        cases rssNewC with
        | none =>
          dsimp only
          rw [hp3 b hb, hp7 b hb, hp6 b hb, hp2 b hb, hp5 b hb, hp1 b hb]
        | some l2 =>
          dsimp only
          obtain ⟨hp4, hT4, hks4⟩ := sectionLoopH_spec (N := N) ("rss_new") keepIds
            decisions true l2 _ (hrssNew l2 rfl) hT3
          rw [hp4 b hb, hp3 b hb, hp7 b hb, hp6 b hb, hp2 b hb, hp5 b hb, hp1 b hb]

/-- The heap rewriter never touches an address below the original heap
size: every write lands on objects `copy.deepcopy` freshly allocated. -/
theorem applyKeptIdsH_preserves (h : Heap) (rdA : Nat) (rssA rssNewA : Option (List Nat))
    (keepIds : List String) (decisions : PyDict Decision) :
    ∀ a, a < h.length →
      hget (applyKeptIdsH h rdA rssA rssNewA keepIds decisions).1 a = hget h a := by
  intro a ha
  unfold applyKeptIdsH
  obtain ⟨hp1, hl1, hr1, hT1⟩ := copyReportH_spec (N := h.length) (h := h) rdA le_rfl
    (tailClosed_init h)
  obtain ⟨hp2, hl2, hr2, hT2⟩ := copyRssH_spec (N := h.length)
    (h := (copyReportH h rdA).1) rssA hl1 hT1
  obtain ⟨hp3, hl3, hr3, hT3⟩ := copyRssH_spec (N := h.length)
    (h := (copyRssH (copyReportH h rdA).1 rssA).1) rssNewA (le_trans hl1 hl2) hT2
  have hrw := rewriteSectionsH_preserves (N := h.length)
    (h := (copyRssH (copyRssH (copyReportH h rdA).1 rssA).1 rssNewA).1)
    (c := (copyReportH h rdA).2)
    (copyRssH (copyReportH h rdA).1 rssA).2
    (copyRssH (copyRssH (copyReportH h rdA).1 rssA).1 rssNewA).2
    keepIds decisions hr1 hT3 hr2 hr3
  rw [hrw a ha, hp3 a (lt_of_lt_of_le ha (le_trans hl1 hl2)),
    hp2 a (lt_of_lt_of_le ha hl1), hp1 a ha]

/-- C9 (no mutation of caller data): on every path of `filter_before_send`
— disabled gate, missing API key, empty candidate list, judgment failure,
or a successful pass — every object of the caller's heap is unchanged:
the rewriter works exclusively on the fresh addresses `copy.deepcopy`
allocated, so the original `report_data`, `rss_items` and `rss_new_items`
object graphs are deep-equal before and after the call. -/
theorem c9_no_mutation (cfg : GateConfig)
    (judgeOne : List Item → Except PyExc (PyDict Decision))
    (h : Heap) (rdA : Nat) (rssA rssNewA : Option (List Nat)) :
    ∀ a, a < h.length →
      hget (filterBeforeSendH cfg judgeOne h rdA rssA rssNewA).1 a = hget h a := by
  intro a ha
  unfold filterBeforeSendH
  split
  · rfl
  · split
    · rfl
    · dsimp only
      split
      · rfl
      · split
        · rfl
        · exact applyKeptIdsH_preserves h rdA rssA rssNewA _ _ a ha

/-- C9 witness: a concrete enabled run on a three-object heap leaves the
caller's entry object untouched. -/
theorem c9_no_mutation_witness :
    0 < hC9.length ∧
    hget (filterBeforeSendH cfgC9 judgeC9 hC9 2 none none).1 0 = hget hC9 0 :=
  ⟨by decide, c9_no_mutation cfgC9 judgeC9 hC9 2 none none 0 (by decide)⟩

set_option maxRecDepth 100000 in
theorem c3_default_keep_beyond_cap_witness :
    (⟨"hot_stats:0:1", "B", "", "g", "hot_stats", ""⟩ : Item) ∈
      (collectCandidates rdC3 none none).drop 1 ∧
    "hot_stats:0:1" ∈ computeKeepIds 60 (collectCandidates rdC3 none none) dsC3W :=
  ⟨by decide,
    c3_default_keep_beyond_cap 60 rdC3 none none dsC3W 1 (by decide)
      ⟨"hot_stats:0:1", "B", "", "g", "hot_stats", ""⟩ (by decide)⟩

set_option maxRecDepth 100000 in
theorem c4_count_consistency_witness :
    (∀ g ∈ (filterBeforeSend cfgE2E judgeOneC4 rdC4 none none).1.stats,
      g.count = some (g.titles.length : Int)) ∧
    (filterBeforeSend cfgE2E judgeOneC4 rdC4 none none).1.totalNewCount =
      some (((filterBeforeSend cfgE2E judgeOneC4 rdC4 none none).1.newTitles.map
        (fun s => (s.titles.length : Int))).sum) :=
  ⟨(c4_count_consistency cfgE2E judgeOneC4 rdC4 none none _ rfl (by decide) (by decide)
      (by rfl) (by decide)).1,
    (c4_count_consistency cfgE2E judgeOneC4 rdC4 none none _ rfl (by decide) (by decide)
      (by rfl) (by decide)).2.2.2.2⟩

end QualityGate
